import Mathlib

/-!
Verification of the philoyore feature-extraction pipeline.

We shallowly embed the core of the repository in Lean:
* the chunked word tokenizer (`philoyore/io.py`, `words`) and its legacy
  variant (`philIO.py`, `words`),
* Python's `str.split()` whitespace splitting (`pySplit`),
* the n-gram tokenizer (`io.py`, `ngrams`),
* `collections.Counter` addition and the stream/feature machinery
  (`stream.py`, `feats/gen.py`, `features.py`),
* the condensed distance matrix (`dist.py`) and distance-name dispatch.

Strings are modelled as `List Char`, Python floats as `ℚ`, Python ints as
`ℤ` or `ℕ`, dictionaries as association lists, and fallible code returns
`Except String`.
-/

set_option maxHeartbeats 1000000

namespace Philoyore

/-- Python's `str.isspace` restricted to the ASCII whitespace characters
(those relevant to the tokenizer's inputs). -/
def isSpace (c : Char) : Bool :=
  c == ' ' || c == '\t' || c == '\n' || c == '\r' || c == '\x0b' || c == '\x0c'

/-- Negation of `isSpace`, used for taking maximal word runs. -/
def notSpace (c : Char) : Bool := !isSpace c

/-- Python's `str.split()` with no separator argument: drop leading
whitespace, take the maximal non-whitespace run as a word, repeat. -/
def pySplit (s : List Char) : List (List Char) :=
  if (s.dropWhile isSpace).isEmpty then []
  else
    (s.dropWhile isSpace).takeWhile notSpace ::
      pySplit ((s.dropWhile isSpace).dropWhile notSpace)
termination_by s.length
decreasing_by
  rename_i h
  simp only [List.isEmpty_iff] at h
  have lem : ∀ (p : Char → Bool) (l : List Char), (l.dropWhile p).length ≤ l.length := by
    intro p l
    have hl := congrArg List.length (List.takeWhile_append_dropWhile p l)
    simp only [List.length_append] at hl
    omega
  have h1 : (s.dropWhile isSpace).length ≤ s.length := lem isSpace s
  rcases hd : s.dropWhile isSpace with _ | ⟨c, cs⟩
  · exact absurd hd h
  · have hc : isSpace c = false := by
      have hw := List.head?_dropWhile_not isSpace s
      rw [hd] at hw
      simpa using hw
    rw [hd] at h1
    simp only [hd, List.dropWhile_cons, notSpace, hc, Bool.not_false, if_pos rfl]
    calc (cs.dropWhile notSpace).length ≤ cs.length := lem notSpace cs
      _ < (c :: cs).length := by simp
      _ ≤ s.length := h1

/-- The loop of `words` in `philoyore/io.py`, reading the remaining input
`rest` in chunks of `bufSize` characters with the withheld partial word
`nextBuf`.  Each iteration reads a chunk, splits `nextBuf ++ chunk` on
whitespace, withholds the last word when the buffer ends mid-word and more
input remains, and stops on an empty buffer. -/
def wordsLoop (bufSize : Nat) (rest nextBuf : List Char) : List (List Char) :=
  if (nextBuf ++ rest.take bufSize).isEmpty then []
  else if isSpace ((nextBuf ++ rest.take bufSize).getLastD ' ')
      || (rest.take bufSize).isEmpty then
    pySplit (nextBuf ++ rest.take bufSize) ++ wordsLoop bufSize (rest.drop bufSize) []
  else
    (pySplit (nextBuf ++ rest.take bufSize)).dropLast ++
      wordsLoop bufSize (rest.drop bufSize)
        ((pySplit (nextBuf ++ rest.take bufSize)).getLastD [])
termination_by 2 * rest.length + min nextBuf.length 1
decreasing_by
  · rename_i h1 h2
    by_cases htk : (rest.take bufSize).isEmpty = true
    · have hnb : nextBuf ≠ [] := by
        intro hb
        rw [hb] at h1
        simp only [List.nil_append] at h1
        exact h1 htk
      have h3 : 0 < nextBuf.length := List.length_pos.mpr hnb
      have h4 : (rest.drop bufSize).length ≤ rest.length := by
        rw [List.length_drop]
        omega
      simp only [List.length_nil]
      omega
    · have h5 : (rest.take bufSize).length ≠ 0 := by
        intro h0
        exact htk (List.isEmpty_iff_length_eq_zero.mpr h0)
      rw [List.length_take] at h5
      simp only [List.length_nil, List.length_drop]
      omega
  · rename_i h1 h2
    have htk : (rest.take bufSize).isEmpty ≠ true := by
      intro h
      exact h2 (by rw [h, Bool.or_true])
    have h5 : (rest.take bufSize).length ≠ 0 := by
      intro h0
      exact htk (List.isEmpty_iff_length_eq_zero.mpr h0)
    rw [List.length_take] at h5
    simp only [List.length_drop]
    omega

/-- `words` from `philoyore/io.py` applied to an in-memory string source
(`FilelikeString`), with the read-chunk size as a parameter. -/
def wordsChunked (bufSize : Nat) (s : List Char) : List (List Char) :=
  wordsLoop bufSize s []

/-- The loop of `words` in the legacy `philIO.py`.  Unlike `io.py` it lacks
the end-of-input check, so a buffer ending mid-word is always withheld.
Fuel-indexed: `none` means the loop has not finished after `fuel`
iterations. -/
def philWordsLoop (bufSize : Nat) : Nat → List Char → List Char → Option (List (List Char))
  | 0, _, _ => none
  | fuel + 1, rest, nextBuf =>
    if (nextBuf ++ rest.take bufSize).isEmpty then some []
    else if isSpace ((nextBuf ++ rest.take bufSize).getLastD ' ') then
      (philWordsLoop bufSize fuel (rest.drop bufSize) []).map
        (fun out => pySplit (nextBuf ++ rest.take bufSize) ++ out)
    else
      (philWordsLoop bufSize fuel (rest.drop bufSize)
          ((pySplit (nextBuf ++ rest.take bufSize)).getLastD [])).map
        (fun out => (pySplit (nextBuf ++ rest.take bufSize)).dropLast ++ out)

/-- The body of `gen_ngrams` in `io.py` `ngrams`: a `deque(maxlen=n)` is
fed the word sequence; appending to a full deque discards its leftmost
element, and the deque is emitted whenever it holds `n` words. -/
def ngramsAux (n : Nat) : List (List Char) → List (List Char) → List (List (List Char))
  | _, [] => []
  | d, w :: ws =>
    if (if d.length = n then d.tail ++ [w] else d ++ [w]).length = n then
      (if d.length = n then d.tail ++ [w] else d ++ [w]) ::
        ngramsAux n (if d.length = n then d.tail ++ [w] else d ++ [w]) ws
    else
      ngramsAux n (if d.length = n then d.tail ++ [w] else d ++ [w]) ws

/-- `ngrams` from `io.py`: fails for `n ≤ 0`, otherwise runs the deque
loop over the given word sequence. -/
def ngrams (n : Int) (ws : List (List Char)) : Except String (List (List (List Char))) :=
  if n ≤ 0 then .error "ngrams: n must be a positive integer"
  else .ok (ngramsAux n.toNat [] ws)

/-- The specification value: all length-`n` windows of `ws` in sliding
order. -/
def slidingWindows (n : Nat) (ws : List (List Char)) : List (List (List Char)) :=
  (List.range (ws.length + 1 - n)).map (fun i => (ws.drop i).take n)

/-- Python list indexing `l[i]` with negative-index wraparound: valid
indices are `-len(l) ≤ i < len(l)`. -/
def pyIndex (l : List ℚ) (i : Int) : Except String ℚ :=
  if 0 ≤ i ∧ i < (l.length : Int) then .ok (l.getD i.toNat 0)
  else if -(l.length : Int) ≤ i ∧ i < 0 then .ok (l.getD (i + l.length).toNat 0)
  else .error "IndexError: list index out of range"

/-- `CondensedDistanceMatrix.get` from `dist.py`: returns `0.0` on the
diagonal and otherwise reads `self.cdm[(n*j) - (j*(j+1)/2) + i - j - 1]`
(for every `i ≠ j`, without swapping `i` and `j`). -/
def cdmGet (n : Nat) (cdm : List ℚ) (i j : Nat) : Except String ℚ :=
  if i = j then .ok 0
  else pyIndex cdm ((n : Int) * j - ((j : Int) * ((j : Int) + 1)) / 2 + i - j - 1)

/-- Model of a Python value passed to `distance` in `dist.py`: either a
string or a (scipy or caller-supplied) two-vector distance function,
identified abstractly by a name. -/
inductive PyDistArg where
  | str (s : String)
  | func (name : String)
deriving DecidableEq

/-- The fixed set of supported metric names hard-coded in `dist.py`
`distance` (identical in `util.py`). -/
def supportedMetrics : List String :=
  ["braycurtis", "canberra", "chebyshev", "cityblock", "correlation",
   "cosine", "dice", "euclidean", "hamming", "jaccard", "kulsinki",
   "matching", "rogerstainimoto", "russelrao", "sokalsneath",
   "sqeuclidean", "yule"]

/-- `distance` from `dist.py`: a non-string argument is returned
unchanged; a supported name resolves to the scipy function of that name
(`getattr(dist, s)`, modelled as `PyDistArg.func s`); any other string
raises a RuntimeError. -/
def distance (a : PyDistArg) : Except String PyDistArg :=
  match a with
  | .func f => .ok (.func f)
  | .str s =>
    if s ∈ supportedMetrics then .ok (.func s)
    else .error ("No such distance function " ++ s ++ " found")

/-- A `collections.Counter` (a token → count dictionary), modelled as an
association list; the list order is the dict's iteration order. -/
abbrev Counter := List (String × Int)

/-- `c[t]` on a Counter: the stored count of `t`, or 0 when absent. -/
def cnt (c : Counter) (t : String) : Int :=
  match c.find? (fun p => p.1 == t) with
  | some p => p.2
  | none => 0

/-- `t in c` on a Counter. -/
def hasKey (c : Counter) (t : String) : Bool :=
  (c.find? (fun p => p.1 == t)).isSome

/-- The keys of a Counter in iteration order. -/
def ckeys (c : Counter) : List String := c.map (fun p => p.1)

/-- Dict well-formedness: keys are distinct. -/
def keysNodup (c : Counter) : Prop := (ckeys c).Nodup

/-- All stored counts are nonnegative. -/
def nonnegCounts (c : Counter) : Prop := ∀ p ∈ c, 0 ≤ p.2

/-- All stored counts are positive (as in a Counter built from a token
stream). -/
def posCounts (c : Counter) : Prop := ∀ p ∈ c, 0 < p.2

instance decKeysNodup (c : Counter) : Decidable (keysNodup c) :=
  inferInstanceAs (Decidable (ckeys c).Nodup)

instance decNonnegCounts (c : Counter) : Decidable (nonnegCounts c) :=
  inferInstanceAs (Decidable (∀ p ∈ c, 0 ≤ p.2))

instance decPosCounts (c : Counter) : Decidable (posCounts c) :=
  inferInstanceAs (Decidable (∀ p ∈ c, 0 < p.2))

/-- The first loop of `Counter.__add__`: for every entry of the left
operand, store the summed count when it is positive. -/
def counterAddPart1 (b : Counter) : Counter → Counter
  | [] => []
  | p :: a =>
    if 0 < p.2 + cnt b p.1 then (p.1, p.2 + cnt b p.1) :: counterAddPart1 b a
    else counterAddPart1 b a

/-- `Counter.__add__` from the Python standard library: entries of the
left operand with positive summed counts, then entries only in the right
operand with positive counts. -/
def counterAdd (a b : Counter) : Counter :=
  counterAddPart1 b a ++ b.filter (fun p => !hasKey a p.1 && decide (0 < p.2))

/-- `sum(counts, Counter())` from `raw_features` in `feats/gen.py` (also
`StreamSet.total` in `stream.py`): a left fold of Counter addition
starting from the empty Counter. -/
def totalCounter (streams : List Counter) : Counter := streams.foldl counterAdd []

/-- `{k: v for v, k in enumerate(keys)}`: the position of a token in the
vocabulary list (keys are distinct, so the position is unique). -/
def idxOf? (t : String) : List String → Option Nat
  | [] => none
  | k :: ks => if k = t then some 0 else (idxOf? t ks).map (fun j => j + 1)

/-- The vector-filling loop of `raw_features`: for every (token, count)
entry of a stream, set the vector slot `ids[token]`; a token missing from
the index dict is a Python `KeyError`. -/
def writeVec (ids : List String) : Counter → List ℚ → Except String (List ℚ)
  | [], v => .ok v
  | p :: c, v =>
    match idxOf? p.1 ids with
    | some j => writeVec ids c (v.set j (p.2 : ℚ))
    | none => .error "KeyError"

/-- Sequential evaluation of a fallible function over a list (the
`for i in range(len(feature_vecs))` loop of `raw_features`). -/
def mapExcept (f : α → Except String β) : List α → Except String (List β)
  | [] => .ok []
  | x :: xs =>
    match f x, mapExcept f xs with
    | .ok y, .ok ys => .ok (y :: ys)
    | .error e, _ => .error e
    | .ok _, .error e => .error e

/-- `raw_features` from `feats/gen.py` (the same construction as the
vector-building part of `FeatureSet.__init__` in `features.py`): the
vocabulary is the key list of the summed Counter; each stream becomes a
zero-initialised vector of that width with its counts written at the
indexed slots.  Returns the vectors together with the key list, whose
positions form the token → index dict. -/
def raw_features (streams : List Counter) : Except String (List (List ℚ) × List String) :=
  match mapExcept
      (fun c => writeVec (ckeys (totalCounter streams)) c
        (List.replicate (ckeys (totalCounter streams)).length 0)) streams with
  | .ok vecs => .ok (vecs, ckeys (totalCounter streams))
  | .error e => .error e

/-- The two concrete streams `{a:1, b:1}` and `{a:1, c:1}` used as a
witness input. -/
def exampleStreams : List Counter :=
  (("a", 1) :: ("b", 1) :: []) :: (("a", 1) :: ("c", 1) :: []) :: []

/-- `putil.total` from `util.py`: the columnwise sum of a list of
equal-length vectors (`np.array(a).sum(axis=0)`). -/
def total (a : List (List ℚ)) : List ℚ :=
  match a with
  | [] => []
  | v :: vs => vs.foldl (fun acc w => List.zipWith (fun x y => x + y) acc w) v

/-- `putil.proportions` from `util.py`: for each column, the fraction of
vectors in which that column is nonzero. -/
def proportions (a : List (List ℚ)) : List ℚ :=
  (List.range (a.headD []).length).map
    (fun i => ((a.filter (fun v => decide (v.getD i 0 ≠ 0))).length : ℚ) / (a.length : ℚ))

/-- `normalize` from `feats/gen.py` (identical arithmetic to the `simple`
branch of `FeatureSet.normalize`): divide every element by its column's
grand total. -/
def normalize (features : List (List ℚ)) : List (List ℚ) :=
  features.map (fun v => List.zipWith (fun x s => x / s) v (total features))

/-- The options dictionary passed to feature deletion: the four
recognised threshold keys plus any other keys present in the dict (only
their names matter, for `len(opts)`). -/
structure DelOpts where
  minocc : Option ℚ
  maxocc : Option ℚ
  minfreq : Option ℚ
  maxfreq : Option ℚ
  extra : List String

/-- `len(opts)`: the number of keys in the options dict. -/
def optsLen (o : DelOpts) : Nat :=
  (if o.minocc.isSome then 1 else 0) + (if o.maxocc.isSome then 1 else 0) +
    (if o.minfreq.isSome then 1 else 0) + (if o.maxfreq.isSome then 1 else 0) +
    o.extra.length

/-- The first three index filters of `delete_features` (minocc, maxocc,
minfreq), applied in source order. -/
def filterIndices3 (opts : DelOpts) (tot props : List ℚ) (indices : List Nat) : List Nat :=
  let i1 := match opts.minocc with
    | some q => indices.filter (fun i => decide (q ≤ tot.getD i 0))
    | none => indices
  let i2 := match opts.maxocc with
    | some q => i1.filter (fun i => decide (tot.getD i 0 ≤ q))
    | none => i1
  match opts.minfreq with
  | some q => i2.filter (fun i => decide (q ≤ props.getD i 0))
  | none => i2

/-- All four index filters of `delete_features` in `feats/gen.py`. -/
def filterIndices (opts : DelOpts) (tot props : List ℚ) (indices : List Nat) : List Nat :=
  match opts.maxfreq with
  | some q => (filterIndices3 opts tot props indices).filter
      (fun i => decide (props.getD i 0 ≤ q))
  | none => filterIndices3 opts tot props indices

/-- `delete_features` from `feats/gen.py`: keeps the columns passing all
supplied bounds and returns the reduced vectors together with the index
map (`(map (lambda v: v[indices]), indices)`); an empty vector list is an
`IndexError` on `features[0]`. -/
def delete_features (features : List (List ℚ)) (opts : DelOpts) :
    Except String (List (List ℚ) × List Nat) :=
  match features with
  | [] => .error "IndexError: list index out of range"
  | v0 :: _ =>
    if optsLen opts = 0 then .ok (features, List.range v0.length)
    else
      .ok (features.map (fun v =>
          (filterIndices opts (total features) (proportions features)
            (List.range v0.length)).map (fun i => v.getD i 0)),
        filterIndices opts (total features) (proportions features)
          (List.range v0.length))

/-- `FeatureSet.delete_features` from `features.py`, as the effect on the
feature vectors.  When `maxfreq` is supplied, the filter reads the
never-assigned attribute `self.propsx` (an `AttributeError`) as soon as
it tests one index; when any column is actually deleted, rebuilding
`feature_to_id` references the undefined name `id_to_feature` (a
`NameError`). -/
def deleteFeaturesFS (vecs : List (List ℚ)) (opts : DelOpts) :
    Except String (List (List ℚ)) :=
  match vecs with
  | [] => .error "IndexError: list index out of range"
  | v0 :: _ =>
    if optsLen opts = 0 then .ok vecs
    else
      let i3 := filterIndices3 opts (total vecs) (proportions vecs)
        (List.range v0.length)
      match opts.maxfreq with
      | some _ =>
        if i3.isEmpty then
          if i3.length = v0.length then .ok vecs
          else .error "NameError: global name id_to_feature is not defined"
        else .error "AttributeError: FeatureSet instance has no attribute propsx"
      | none =>
        if i3.length = v0.length then .ok vecs
        else .error "NameError: global name id_to_feature is not defined"

/-- `FeatureSet.normalize` from `features.py`.  The tf-idf variants scale
by `idf = f(1/props)`, where `f` is `np.log` for `tf-idf` and
`tf-idf-log2` (the external real logarithm, passed in abstractly as
`logFn`) and the identity for `tf-idf-nolog`. -/
def normalizeFS (logFn : ℚ → ℚ) (method : String) (vecs : List (List ℚ)) :
    Except String (List (List ℚ)) :=
  if method = "simple" then
    .ok (vecs.map (fun v => List.zipWith (fun x s => x / s) v (total vecs)))
  else if method = "tf-idf" ∨ method = "tf-idf-log2" ∨ method = "tf-idf-nolog" then
    .ok (vecs.map (fun v => List.zipWith (fun x y => x * y) v
      ((proportions vecs).map (fun p =>
        if method = "tf-idf-nolog" then 1 / p else logFn (1 / p)))))
  else if method = "none" then .ok vecs
  else .error ("Unknown normalization method " ++ method)

/-- `FeatureSet.process` from `features.py`: feature deletion followed by
normalization. -/
def processFS (logFn : ℚ → ℚ) (vecs : List (List ℚ)) (delete : DelOpts)
    (norm : String) : Except String (List (List ℚ)) :=
  match deleteFeaturesFS vecs delete with
  | .ok v => normalizeFS logFn norm v
  | .error e => .error e

/-- `FeatureSet.__init__` from `features.py`, as the effect on the
feature vectors: build the raw count vectors from the corpus, then call
`self.process(kwargs)` — the keyword-options dict is passed POSITIONALLY
as the `delete` argument of `process`, so `norm` keeps its default
`'none'`. -/
def featureSetInit (logFn : ℚ → ℚ) (corpus : List Counter) (kwargs : DelOpts) :
    Except String (List (List ℚ)) :=
  match raw_features corpus with
  | .ok r => processFS logFn r.1 kwargs "none"
  | .error e => .error e

theorem length_dropWhile_le (p : α → Bool) (l : List α) :
    (l.dropWhile p).length ≤ l.length := by
  have h := congrArg List.length (List.takeWhile_append_dropWhile p l)
  simp only [List.length_append] at h
  omega

theorem pySplit_nil : pySplit [] = [] := by
  rw [pySplit]; simp

/-- `pySplit` only depends on the input after its leading whitespace. -/
theorem pySplit_congr_dropWhile {s t : List Char}
    (h : s.dropWhile isSpace = t.dropWhile isSpace) : pySplit s = pySplit t := by
  conv_lhs => rw [pySplit]
  rw [h]
  conv_rhs => rw [pySplit]

theorem takeWhile_append_stop {α : Type} {p : α → Bool} {l : List α} (r : List α)
    (h : ∃ x ∈ l, p x = false) : (l ++ r).takeWhile p = l.takeWhile p := by
  induction l with
  | nil => simp at h
  | cons a l ih =>
    by_cases hp : p a
    · rcases h with ⟨x, hx, hpx⟩
      rcases List.mem_cons.mp hx with rfl | hx
      · rw [hp] at hpx; cases hpx
      · simp only [List.cons_append, List.takeWhile_cons_of_pos hp]
        rw [ih ⟨x, hx, hpx⟩]
    · simp [List.takeWhile_cons_of_neg hp]

theorem dropWhile_append_stop {α : Type} {p : α → Bool} {l : List α} (r : List α)
    (h : ∃ x ∈ l, p x = false) : (l ++ r).dropWhile p = l.dropWhile p ++ r := by
  induction l with
  | nil => simp at h
  | cons a l ih =>
    by_cases hp : p a
    · rcases h with ⟨x, hx, hpx⟩
      rcases List.mem_cons.mp hx with rfl | hx
      · rw [hp] at hpx; cases hpx
      · simp only [List.cons_append, List.dropWhile_cons_of_pos hp]
        exact ih ⟨x, hx, hpx⟩
    · simp [List.dropWhile_cons_of_neg hp]

theorem dropWhile_ne_nil_of_stop {α : Type} {p : α → Bool} {l : List α}
    (h : ∃ x ∈ l, p x = false) : l.dropWhile p ≠ [] := by
  intro hnil
  rcases h with ⟨x, hx, hpx⟩
  have := List.dropWhile_eq_nil_iff.mp hnil x hx
  rw [hpx] at this; cases this

theorem getLastD_eq_getLast {α : Type} {l : List α} (d : α) (h : l ≠ []) :
    l.getLastD d = l.getLast h := by
  rw [List.getLastD_eq_getLast?, List.getLast?_eq_getLast l h]
  rfl

theorem getLastD_mem {α : Type} {l : List α} (d : α) (h : l ≠ []) : l.getLastD d ∈ l := by
  rw [getLastD_eq_getLast d h]
  exact List.getLast_mem h

theorem getLastD_append_right {α : Type} {l t : List α} (d : α) (h : t ≠ []) :
    (l ++ t).getLastD d = t.getLastD d := by
  rw [List.getLastD_eq_getLast?, List.getLastD_eq_getLast?, List.getLast?_append]
  obtain ⟨v, hv⟩ := Option.isSome_iff_exists.mp (List.getLast?_isSome.mpr h)
  rw [hv]
  rfl

theorem getLastD_irrel {α : Type} {l : List α} (d e : α) (h : l ≠ []) :
    l.getLastD d = l.getLastD e := by
  rw [getLastD_eq_getLast d h, getLastD_eq_getLast e h]

theorem dropLast_cons_ne_nil {α : Type} {l : List α} (a : α) (h : l ≠ []) :
    (a :: l).dropLast = a :: l.dropLast := by
  rcases l with _ | ⟨b, l⟩
  · exact absurd rfl h
  · rfl

theorem headD_append_left {α : Type} {t : List α} (b : List α) (d : α) (h : t ≠ []) :
    (t ++ b).headD d = t.headD d := by
  rcases t with _ | ⟨c, cs⟩
  · exact absurd rfl h
  · rfl

theorem headD_dropWhile_false {α : Type} {p : α → Bool} {l : List α} (d : α)
    (h : l.dropWhile p ≠ []) : p ((l.dropWhile p).headD d) = false := by
  rcases hd : l.dropWhile p with _ | ⟨c, cs⟩
  · exact absurd hd h
  · have hw := List.head?_dropWhile_not p l
    rw [hd] at hw
    simpa using hw

theorem dropWhile_idem {α : Type} {p : α → Bool} (l : List α) :
    (l.dropWhile p).dropWhile p = l.dropWhile p := by
  rcases hd : l.dropWhile p with _ | ⟨c, cs⟩
  · rfl
  · have hw := List.head?_dropWhile_not p l
    rw [hd] at hw
    simp only [List.head?_cons] at hw
    rw [List.dropWhile_cons_of_neg]
    simp [hw]

/-- Splitting a list whose head is a word character peels off the leading word. -/
theorem pySplit_eq_of_head_word {t : List Char} (ht : t ≠ [])
    (hh : isSpace (t.headD ' ') = false) :
    pySplit t = t.takeWhile notSpace :: pySplit (t.dropWhile notSpace) := by
  rw [pySplit]
  have hdw : t.dropWhile isSpace = t := by
    rcases t with _ | ⟨c, cs⟩
    · exact absurd rfl ht
    · simp only [List.headD_cons] at hh
      rw [List.dropWhile_cons_of_neg]
      simp [hh]
  rw [hdw]
  simp [List.isEmpty_iff, ht]

theorem pySplit_eq_split_dropWhile (a : List Char) :
    pySplit a = pySplit (a.dropWhile isSpace) := by
  exact pySplit_congr_dropWhile (dropWhile_idem a).symm

/-- A list ending in a word character splits into at least one word. -/
theorem pySplit_ne_nil {a : List Char} (ha : a ≠ [])
    (hl : isSpace (a.getLastD ' ') = false) : pySplit a ≠ [] := by
  have ht : a.dropWhile isSpace ≠ [] := by
    intro h
    have hall := List.dropWhile_eq_nil_iff.mp h _ (getLastD_mem ' ' ha)
    rw [hl] at hall; cases hall
  rw [pySplit]
  simp [List.isEmpty_iff, ht]

/-- Splitting `a ++ b` when `a` ends in whitespace: the words of `a` are
complete, so the split decomposes. -/
theorem pySplit_append_space_aux : ∀ n (a : List Char), a.length ≤ n → a ≠ [] →
    isSpace (a.getLastD ' ') = true → ∀ b, pySplit (a ++ b) = pySplit a ++ pySplit b := by
  intro n
  induction n with
  | zero =>
    intro a hlen ha _ _
    rcases a with _ | _
    · exact absurd rfl ha
    · simp at hlen
  | succ n ih =>
    intro a hlen ha hl b
    by_cases ht : a.dropWhile isSpace = []
    · have hall := List.dropWhile_eq_nil_iff.mp ht
      have h1 : pySplit a = [] := by rw [pySplit]; simp [ht]
      have h2 : pySplit (a ++ b) = pySplit b := by
        apply pySplit_congr_dropWhile
        rw [List.dropWhile_append_of_pos hall]
      simp [h1, h2]
    · have hsplit := List.takeWhile_append_dropWhile isSpace a
      have hlastt : (a.dropWhile isSpace).getLastD ' ' = a.getLastD ' ' := by
        conv_rhs => rw [← hsplit]
        exact (getLastD_append_right ' ' ht).symm
      have hex : ∃ x ∈ a.dropWhile isSpace, notSpace x = false := by
        refine ⟨(a.dropWhile isSpace).getLastD ' ', getLastD_mem ' ' ht, ?_⟩
        simp only [notSpace, hlastt, hl, Bool.not_true]
      have hheadt : isSpace ((a.dropWhile isSpace).headD ' ') = false :=
        headD_dropWhile_false ' ' ht
      have htw : ∀ x ∈ a.takeWhile isSpace, isSpace x := by
        intro x hx
        exact List.mem_takeWhile_imp hx
      have hdwab : (a ++ b).dropWhile isSpace = a.dropWhile isSpace ++ b := by
        conv_lhs => rw [← hsplit, List.append_assoc]
        rw [List.dropWhile_append_of_pos htw]
        rcases htt : a.dropWhile isSpace with _ | ⟨c, cs⟩
        · exact absurd htt ht
        · rw [htt] at hheadt
          simp only [List.headD_cons] at hheadt
          rw [List.cons_append, List.dropWhile_cons_of_neg]
          simp [hheadt]
      have e1 : pySplit (a ++ b) =
          (a.dropWhile isSpace ++ b).takeWhile notSpace ::
            pySplit ((a.dropWhile isSpace ++ b).dropWhile notSpace) := by
        rw [pySplit_eq_split_dropWhile (a ++ b)]
        rw [hdwab]
        refine pySplit_eq_of_head_word (by simp [ht]) ?_
        rw [headD_append_left b ' ' ht]
        exact hheadt
      have e2 : pySplit a =
          (a.dropWhile isSpace).takeWhile notSpace ::
            pySplit ((a.dropWhile isSpace).dropWhile notSpace) := by
        rw [pySplit_eq_split_dropWhile a]
        exact pySplit_eq_of_head_word ht hheadt
      have ha' : (a.dropWhile isSpace).dropWhile notSpace ≠ [] := dropWhile_ne_nil_of_stop hex
      have hlast' : isSpace (((a.dropWhile isSpace).dropWhile notSpace).getLastD ' ') = true := by
        have h3 := List.takeWhile_append_dropWhile notSpace (a.dropWhile isSpace)
        have h4 : ((a.dropWhile isSpace).dropWhile notSpace).getLastD ' ' =
            (a.dropWhile isSpace).getLastD ' ' := by
          conv_rhs => rw [← h3]
          exact (getLastD_append_right ' ' ha').symm
        rw [h4, hlastt]
        exact hl
      have hlen' : ((a.dropWhile isSpace).dropWhile notSpace).length ≤ n := by
        have h5 : (a.dropWhile isSpace).length ≤ a.length := length_dropWhile_le isSpace a
        rcases htt : a.dropWhile isSpace with _ | ⟨c, cs⟩
        · exact absurd htt ht
        · have hc : notSpace c = true := by
            rw [htt] at hheadt
            simp only [List.headD_cons] at hheadt
            simp [notSpace, hheadt]
          rw [List.dropWhile_cons_of_pos hc]
          have h6 : (cs.dropWhile notSpace).length ≤ cs.length := length_dropWhile_le notSpace cs
          rw [htt] at h5
          simp only [List.length_cons] at h5
          omega
      rw [e1, e2, takeWhile_append_stop b hex, dropWhile_append_stop b hex, List.cons_append]
      congr 1
      exact ih _ hlen' ha' hlast' b

theorem takeWhile_eq_self_of_all {α : Type} {p : α → Bool} {l : List α}
    (h : ∀ x ∈ l, p x = true) : l.takeWhile p = l := by
  induction l with
  | nil => rfl
  | cons a l ih =>
    rw [List.takeWhile_cons_of_pos (h a (List.mem_cons_self a l))]
    rw [ih (fun x hx => h x (List.mem_cons_of_mem a hx))]

/-- Splitting `a ++ b` when `a` ends in a word character: the last word of
`a` may continue into `b`, so it is re-split together with `b`. -/
theorem pySplit_append_word_aux : ∀ n (a : List Char), a.length ≤ n → a ≠ [] →
    isSpace (a.getLastD ' ') = false → ∀ b,
    pySplit (a ++ b) = (pySplit a).dropLast ++ pySplit ((pySplit a).getLastD [] ++ b) := by
  intro n
  induction n with
  | zero =>
    intro a hlen ha _ _
    rcases a with _ | _
    · exact absurd rfl ha
    · simp at hlen
  | succ n ih =>
    intro a hlen ha hl b
    have ht : a.dropWhile isSpace ≠ [] := by
      intro h
      have hall := List.dropWhile_eq_nil_iff.mp h _ (getLastD_mem ' ' ha)
      rw [hl] at hall
      cases hall
    have hsplit := List.takeWhile_append_dropWhile isSpace a
    have hlastt : (a.dropWhile isSpace).getLastD ' ' = a.getLastD ' ' := by
      conv_rhs => rw [← hsplit]
      exact (getLastD_append_right ' ' ht).symm
    have hheadt : isSpace ((a.dropWhile isSpace).headD ' ') = false :=
      headD_dropWhile_false ' ' ht
    have htw : ∀ x ∈ a.takeWhile isSpace, isSpace x := by
      intro x hx
      exact List.mem_takeWhile_imp hx
    have hdtb : (a.dropWhile isSpace ++ b).dropWhile isSpace = a.dropWhile isSpace ++ b := by
      rcases htt : a.dropWhile isSpace with _ | ⟨c, cs⟩
      · exact absurd htt ht
      · rw [htt] at hheadt
        simp only [List.headD_cons] at hheadt
        rw [List.cons_append, List.dropWhile_cons_of_neg]
        simp [hheadt]
    have hdwab : (a ++ b).dropWhile isSpace = a.dropWhile isSpace ++ b := by
      conv_lhs => rw [← hsplit, List.append_assoc]
      rw [List.dropWhile_append_of_pos htw]
      exact hdtb
    have e1 : pySplit (a ++ b) =
        (a.dropWhile isSpace ++ b).takeWhile notSpace ::
          pySplit ((a.dropWhile isSpace ++ b).dropWhile notSpace) := by
      rw [pySplit_eq_split_dropWhile (a ++ b), hdwab]
      refine pySplit_eq_of_head_word (by simp [ht]) ?_
      rw [headD_append_left b ' ' ht]
      exact hheadt
    by_cases hex : ∃ x ∈ a.dropWhile isSpace, notSpace x = false
    · -- the trailing chunk of `a` still contains whitespace
      have e2 : pySplit a =
          (a.dropWhile isSpace).takeWhile notSpace ::
            pySplit ((a.dropWhile isSpace).dropWhile notSpace) := by
        rw [pySplit_eq_split_dropWhile a]
        exact pySplit_eq_of_head_word ht hheadt
      have ha' : (a.dropWhile isSpace).dropWhile notSpace ≠ [] := dropWhile_ne_nil_of_stop hex
      have hlast' : isSpace (((a.dropWhile isSpace).dropWhile notSpace).getLastD ' ') = false := by
        have h3 := List.takeWhile_append_dropWhile notSpace (a.dropWhile isSpace)
        have h4 : ((a.dropWhile isSpace).dropWhile notSpace).getLastD ' ' =
            (a.dropWhile isSpace).getLastD ' ' := by
          conv_rhs => rw [← h3]
          exact (getLastD_append_right ' ' ha').symm
        rw [h4, hlastt]
        exact hl
      have hlen' : ((a.dropWhile isSpace).dropWhile notSpace).length ≤ n := by
        have h5 : (a.dropWhile isSpace).length ≤ a.length := length_dropWhile_le isSpace a
        rcases htt : a.dropWhile isSpace with _ | ⟨c, cs⟩
        · exact absurd htt ht
        · have hc : notSpace c = true := by
            rw [htt] at hheadt
            simp only [List.headD_cons] at hheadt
            simp [notSpace, hheadt]
          rw [List.dropWhile_cons_of_pos hc]
          have h6 : (cs.dropWhile notSpace).length ≤ cs.length := length_dropWhile_le notSpace cs
          rw [htt] at h5
          simp only [List.length_cons] at h5
          omega
      have hpne : pySplit ((a.dropWhile isSpace).dropWhile notSpace) ≠ [] :=
        pySplit_ne_nil ha' hlast'
      rw [e1, e2, takeWhile_append_stop b hex, dropWhile_append_stop b hex]
      rw [ih _ hlen' ha' hlast' b]
      rw [dropLast_cons_ne_nil _ hpne, List.getLastD_cons]
      rw [getLastD_irrel [] ((a.dropWhile isSpace).takeWhile notSpace) hpne]
      simp [List.cons_append]
    · -- the trailing chunk of `a` is a single unfinished word
      have hall : ∀ x ∈ a.dropWhile isSpace, notSpace x = true := by
        intro x hx
        cases hno : notSpace x
        · exact absurd ⟨x, hx, hno⟩ hex
        · rfl
      have htk : (a.dropWhile isSpace).takeWhile notSpace = a.dropWhile isSpace :=
        takeWhile_eq_self_of_all hall
      have hdw0 : (a.dropWhile isSpace).dropWhile notSpace = [] :=
        List.dropWhile_eq_nil_iff.mpr (by intro x hx; exact hall x hx)
      have e2 : pySplit a = [a.dropWhile isSpace] := by
        rw [pySplit_eq_split_dropWhile a]
        rw [pySplit_eq_of_head_word ht hheadt, htk, hdw0, pySplit_nil]
      have e1' : pySplit (a ++ b) = pySplit (a.dropWhile isSpace ++ b) := by
        apply pySplit_congr_dropWhile
        rw [hdwab, hdtb]
      rw [e1', e2]
      simp [List.getLastD]

theorem wordsLoop_nil (bufSize : Nat) (nb : List Char) :
    wordsLoop bufSize [] nb = pySplit nb := by
  rw [wordsLoop]
  simp only [List.take_nil, List.append_nil, List.drop_nil, List.isEmpty_nil, Bool.or_true]
  rcases hnb : nb with _ | ⟨c, cs⟩
  · simp [pySplit_nil]
  · rw [if_pos trivial, wordsLoop]
    simp

theorem wordsLoop_eq_pySplit (bufSize : Nat) (hb : 1 ≤ bufSize) :
    ∀ n (rest : List Char), rest.length ≤ n → ∀ nb,
      wordsLoop bufSize rest nb = pySplit (nb ++ rest) := by
  intro n
  induction n with
  | zero =>
    intro rest hlen nb
    have hr : rest = [] := by
      rcases rest with _ | _
      · rfl
      · simp at hlen
    subst hr
    rw [wordsLoop_nil, List.append_nil]
  | succ n ih =>
    intro rest hlen nb
    rcases rest with _ | ⟨r0, rs⟩
    · rw [wordsLoop_nil, List.append_nil]
    · have htkne : (r0 :: rs).take bufSize ≠ [] := by
        rcases bufSize with _ | m
        · omega
        · simp [List.take_succ_cons]
      have hcb : nb ++ (r0 :: rs).take bufSize ≠ [] := by
        simp [htkne]
      have hlen' : ((r0 :: rs).drop bufSize).length ≤ n := by
        simp only [List.length_drop, List.length_cons]
        simp only [List.length_cons] at hlen
        omega
      have hdecomp : nb ++ (r0 :: rs) =
          (nb ++ (r0 :: rs).take bufSize) ++ (r0 :: rs).drop bufSize := by
        rw [List.append_assoc, List.take_append_drop]
      rw [wordsLoop]
      rw [if_neg (by simp [List.isEmpty_iff, htkne])]
      by_cases hsp : isSpace ((nb ++ (r0 :: rs).take bufSize).getLastD ' ') = true
      · rw [if_pos (by rw [hsp, Bool.true_or])]
        rw [ih ((r0 :: rs).drop bufSize) hlen' [], List.nil_append]
        rw [hdecomp]
        exact (pySplit_append_space_aux (nb ++ (r0 :: rs).take bufSize).length _
          le_rfl hcb hsp _).symm
      · have hsp' : isSpace ((nb ++ (r0 :: rs).take bufSize).getLastD ' ') = false :=
          Bool.eq_false_iff.mpr hsp
        rw [if_neg (by
          rw [hsp', Bool.false_or]
          simp [List.isEmpty_iff, htkne])]
        rw [ih ((r0 :: rs).drop bufSize) hlen'
          ((pySplit (nb ++ (r0 :: rs).take bufSize)).getLastD [])]
        rw [hdecomp]
        exact (pySplit_append_word_aux (nb ++ (r0 :: rs).take bufSize).length _
          le_rfl hcb hsp' _).symm

/-- A nonempty all-word-character list splits into exactly itself. -/
theorem pySplit_single_word {w : List Char} (hw : w ≠ [])
    (hall : ∀ x ∈ w, notSpace x = true) : pySplit w = [w] := by
  have hh : isSpace (w.headD ' ') = false := by
    rcases w with _ | ⟨c, cs⟩
    · exact absurd rfl hw
    · have := hall c (List.mem_cons_self c cs)
      simp only [notSpace] at this
      simpa using this
  rw [pySplit_eq_of_head_word hw hh]
  rw [takeWhile_eq_self_of_all hall]
  rw [List.dropWhile_eq_nil_iff.mpr (by intro x hx; exact hall x hx), pySplit_nil]

/-- After end of input, a withheld single-word buffer is re-split forever:
the `philIO.py` loop is stuck. -/
theorem philWordsLoop_stuck (bufSize : Nat) (w : List Char) (hw : w ≠ [])
    (hall : ∀ x ∈ w, notSpace x = true) :
    ∀ fuel, philWordsLoop bufSize fuel [] w = none := by
  intro fuel
  induction fuel with
  | zero => rfl
  | succ fuel ih =>
    have hlast : isSpace (w.getLastD ' ') = false := by
      have := hall _ (getLastD_mem ' ' hw)
      simp only [notSpace] at this
      simpa using this
    rw [philWordsLoop]
    simp only [List.take_nil, List.append_nil, List.drop_nil]
    rw [if_neg (by simp [List.isEmpty_iff, hw])]
    rw [if_neg (by rw [hlast]; exact Bool.false_ne_true)]
    rw [pySplit_single_word hw hall]
    simp only [List.getLastD_cons, List.getLastD_nil]
    rw [ih]
    rfl

/-- Claim C1 (amended: chunk size at least 1): for every input string and
every chunk size ≥ 1, the chunked word tokenizer of `philoyore/io.py`
yields exactly the same sequence of words as splitting the whole input on
whitespace at once. -/
theorem c1_words_chunked_eq_split (bufSize : Nat) (hb : 1 ≤ bufSize) (s : List Char) :
    wordsChunked bufSize s = pySplit s := by
  rw [wordsChunked, wordsLoop_eq_pySplit bufSize hb s.length s le_rfl [], List.nil_append]

/-- Witness for C1: chunk size 3 on the input `"hi yo"`. -/
theorem c1_words_chunked_eq_split_witness :
    1 ≤ 3 ∧ wordsChunked 3 ('h' :: 'i' :: ' ' :: 'y' :: 'o' :: []) =
      pySplit ('h' :: 'i' :: ' ' :: 'y' :: 'o' :: []) :=
  ⟨by decide, c1_words_chunked_eq_split 3 (by decide) _⟩

/-- Counterexample to C1 as stated (over every chunk size): with chunk size
0 the reader's first `read` returns the empty string, so the loop stops at
once and yields no words at all, while the whole-string split of `"a"` is
`["a"]`. -/
theorem c1_counterexample_chunk_zero :
    wordsChunked 0 ('a' :: []) ≠ pySplit ('a' :: []) := by
  have h1 : wordsChunked 0 ('a' :: []) = [] := by
    rw [wordsChunked, wordsLoop]
    simp
  have h2 : pySplit ('a' :: []) = [('a' :: [])] :=
    pySplit_single_word (by simp) (by decide)
  rw [h1, h2]
  simp

/-- Claim C6: the legacy `philIO.py` word tokenizer does NOT terminate on
the bounded input `"abc"` (an input that does not end in whitespace): at
end of input the unfinished word `"abc"` is withheld and re-buffered
forever, for any amount of fuel.  (The fixed `io.py` variant, modelled by
`wordsChunked`, does terminate and emits the trailing word.) -/
theorem c6_philIO_words_diverges_on_abc :
    ∀ fuel, philWordsLoop 1024 fuel ('a' :: 'b' :: 'c' :: []) [] = none := by
  intro fuel
  cases fuel with
  | zero => rfl
  | succ fuel =>
    rw [philWordsLoop]
    rw [List.take_of_length_le (by norm_num)]
    rw [List.nil_append]
    rw [if_neg (by simp)]
    rw [if_neg (by decide)]
    rw [List.drop_of_length_le (by norm_num)]
    rw [pySplit_single_word (by simp) (by decide)]
    simp only [List.getLastD_cons, List.getLastD_nil]
    rw [philWordsLoop_stuck 1024 _ (by simp) (by decide) fuel]
    rfl

theorem ngramsAux_full (n : Nat) (hn : 1 ≤ n) :
    ∀ (ws d : List (List Char)), d.length = n →
      ngramsAux n d ws =
        (List.range ws.length).map (fun i => ((d ++ ws).drop (i + 1)).take n) := by
  intro ws
  induction ws with
  | nil => intro d _; simp [ngramsAux]
  | cons w ws ih =>
    intro d hd
    have hdne : d ≠ [] := by
      intro h
      rw [h] at hd
      simp at hd
      omega
    have hd2 : (d.tail ++ [w]).length = n := by
      simp only [List.length_append, List.length_tail, List.length_cons, List.length_nil]
      omega
    rw [ngramsAux]
    rw [if_pos hd, if_pos hd2]
    rw [ih (d.tail ++ [w]) hd2]
    have hdrop1 : ∀ x : List (List Char), (d ++ x).drop 1 = d.tail ++ x := by
      intro x
      rcases d with _ | ⟨a, as⟩
      · exact absurd rfl hdne
      · simp
    rw [List.length_cons, List.range_succ_eq_map]
    rw [List.map_cons, List.map_map]
    congr 1
    · have h0 : (d ++ w :: ws).drop (0 + 1) = (d.tail ++ [w]) ++ ws := by
        rw [hdrop1 (w :: ws)]
        simp
      rw [h0]
      have h1 := List.take_left (d.tail ++ [w]) ws
      rw [hd2] at h1
      exact h1.symm
    · apply List.map_congr_left
      intro i _
      simp only [Function.comp]
      have h1 : (d.tail ++ [w]) ++ ws = (d ++ w :: ws).drop 1 := by
        rw [hdrop1 (w :: ws)]
        simp
      rw [h1, List.drop_drop]
      congr 2
      omega

theorem ngramsAux_fill (n : Nat) (hn : 1 ≤ n) :
    ∀ (ws d : List (List Char)), d.length < n →
      ngramsAux n d ws =
        (List.range (d.length + ws.length + 1 - n)).map
          (fun i => ((d ++ ws).drop i).take n) := by
  intro ws
  induction ws with
  | nil =>
    intro d hd
    have : d.length + 0 + 1 - n = 0 := by omega
    simp [ngramsAux, this]
  | cons w ws ih =>
    intro d hd
    have hne : ¬ d.length = n := by omega
    rw [ngramsAux, if_neg hne]
    have hlen2 : (d ++ [w]).length = d.length + 1 := by simp
    have hassoc : d ++ w :: ws = (d ++ [w]) ++ ws := by simp
    by_cases hfull : (d ++ [w]).length = n
    · rw [if_pos hfull]
      rw [ngramsAux_full n hn ws (d ++ [w]) hfull]
      have hcnt : d.length + (w :: ws).length + 1 - n = ws.length + 1 := by
        simp only [List.length_cons]
        omega
      rw [hcnt, List.range_succ_eq_map, List.map_cons, List.map_map]
      congr 1
      · rw [hassoc, List.drop_zero]
        have h2 := List.take_left (d ++ [w]) ws
        rw [hfull] at h2
        exact h2.symm
      · apply List.map_congr_left
        intro i _
        simp only [Function.comp]
        rw [hassoc]
    · rw [if_neg hfull]
      rw [ih (d ++ [w]) (by omega)]
      rw [hassoc]
      congr 2
      simp only [List.length_append, List.length_cons, List.length_nil]
      omega

theorem ngramsAux_eq_slidingWindows (n : Nat) (hn : 1 ≤ n) (ws : List (List Char)) :
    ngramsAux n [] ws = slidingWindows n ws := by
  rw [ngramsAux_fill n hn ws [] (by simpa using hn), slidingWindows]
  simp

theorem slidingWindows_get (n : Nat) (ws : List (List Char)) (i : Nat)
    (hi : i < (slidingWindows n ws).length) :
    (slidingWindows n ws).get ⟨i, hi⟩ = (ws.drop i).take n := by
  rw [List.get_eq_getElem]
  simp only [slidingWindows, List.getElem_map, List.getElem_range]

/-- Claim C7: for every `n ≥ 1` the n-gram tokenizer yields exactly
`max(0, L-n+1)` tuples over a word sequence of length `L`, each of length
`n`, in sliding-window order (window `i` is `take n (drop i ws)`); for
every `n ≤ 0` it fails with an invalid-argument error. -/
theorem c7_ngrams_spec (n : Int) (ws : List (List Char)) :
    (n ≤ 0 → ngrams n ws = .error "ngrams: n must be a positive integer") ∧
    (1 ≤ n → ngrams n ws = .ok (slidingWindows n.toNat ws) ∧
      ((slidingWindows n.toNat ws).length : Int) = max 0 ((ws.length : Int) - n + 1) ∧
      (∀ g ∈ slidingWindows n.toNat ws, g.length = n.toNat) ∧
      (∀ i (hi : i < (slidingWindows n.toNat ws).length),
        (slidingWindows n.toNat ws).get ⟨i, hi⟩ = (ws.drop i).take n.toNat)) := by
  constructor
  · intro hle
    rw [ngrams, if_pos hle]
  · intro hge
    have hpos : ¬ n ≤ 0 := by omega
    have hn1 : 1 ≤ n.toNat := by omega
    refine ⟨?_, ?_, ?_, ?_⟩
    · rw [ngrams, if_neg hpos, ngramsAux_eq_slidingWindows n.toNat hn1 ws]
    · rw [slidingWindows, List.length_map, List.length_range]
      omega
    · intro g hg
      rw [slidingWindows] at hg
      rcases List.mem_map.mp hg with ⟨i, hi, rfl⟩
      rw [List.mem_range] at hi
      rw [List.length_take, List.length_drop]
      omega
    · intro i hi
      exact slidingWindows_get n.toNat ws i hi

/-- Witness for C7: bigrams of a three-word sequence. -/
theorem c7_ngrams_spec_witness :
    (1 ≤ (2 : Int)) ∧ (ngrams 2 (('a' :: []) :: ('b' :: []) :: ('c' :: []) :: []) =
        .ok (slidingWindows 2 (('a' :: []) :: ('b' :: []) :: ('c' :: []) :: [])) ∧
      ((slidingWindows 2 (('a' :: []) :: ('b' :: []) :: ('c' :: []) :: [])).length : Int) =
        max 0 ((3 : Int) - 2 + 1) ∧
      (∀ g ∈ slidingWindows 2 (('a' :: []) :: ('b' :: []) :: ('c' :: []) :: []),
        g.length = (2 : Int).toNat) ∧
      (∀ i (hi : i < (slidingWindows 2 (('a' :: []) :: ('b' :: []) :: ('c' :: []) :: [])).length),
        (slidingWindows 2 (('a' :: []) :: ('b' :: []) :: ('c' :: []) :: [])).get ⟨i, hi⟩ =
          ((('a' :: []) :: ('b' :: []) :: ('c' :: []) :: []).drop i).take (2 : Int).toNat)) :=
  ⟨by decide,
    (c7_ngrams_spec 2 (('a' :: []) :: ('b' :: []) :: ('c' :: []) :: [])).2 (by decide)⟩

/-- Counterexample to C2: for `n = 3` with condensed storage
`[10, 20, 30]`, `get(0,2)` reads entry 0 but `get(2,0)` reads entry 1, so
the symmetry invariant `get(i,j) == get(j,i)` fails. -/
theorem c2_counterexample_not_symmetric :
    cdmGet 3 (10 :: 20 :: 30 :: []) 0 2 = .ok 10 ∧
    cdmGet 3 (10 :: 20 :: 30 :: []) 2 0 = .ok 20 ∧
    cdmGet 3 (10 :: 20 :: 30 :: []) 0 2 ≠ cdmGet 3 (10 :: 20 :: 30 :: []) 2 0 := by
  have h1 : cdmGet 3 (10 :: 20 :: 30 :: []) 0 2 = .ok 10 := by
    rw [cdmGet, if_neg (by omega), pyIndex]
    norm_num
  have h2 : cdmGet 3 (10 :: 20 :: 30 :: []) 2 0 = .ok 20 := by
    rw [cdmGet, if_neg (by omega), pyIndex]
    norm_num
  refine ⟨h1, h2, ?_⟩
  rw [h1, h2]
  intro h
  have h3 := Except.ok.inj h
  norm_num at h3

/-- Claim C2 (amended): `get(i,i) = 0` for every `i`, and for `j < i`
(not `i < j`: the code never swaps the pair) the formula
`n*j - j*(j+1)/2 + i - j - 1` is a valid in-range index into the condensed
storage and `get(i,j)` returns that entry; symmetry fails in general (see
the counterexample). -/
theorem c2_cdmGet_amended (n : Nat) (cdm : List ℚ)
    (hlen : 2 * cdm.length = n * (n - 1)) (i j : Nat) (hi : i < n) (hj : j < n) :
    cdmGet n cdm i i = .ok 0 ∧
    (j < i → ∃ k : Nat,
      (k : Int) = (n : Int) * j - ((j : Int) * ((j : Int) + 1)) / 2 + i - j - 1 ∧
      k < cdm.length ∧ cdmGet n cdm i j = .ok (cdm.getD k 0)) := by
  constructor
  · rw [cdmGet, if_pos rfl]
  · intro hji
    obtain ⟨m, hm⟩ := (Int.even_mul_succ_self (j : Int))
    have hmdiv : ((j : Int) * ((j : Int) + 1)) / 2 = m := by omega
    have hnlen : 2 * (cdm.length : Int) = (n : Int) * ((n : Int) - 1) := by
      have h1n : (1 : Nat) ≤ n := by omega
      have hc := congrArg (fun x : Nat => (x : Int)) hlen
      push_cast [Nat.cast_sub h1n] at hc
      exact hc
    have hkey : 0 ≤ (j : Int) * ((n : Int) - j - 1) := by
      apply mul_nonneg
      · positivity
      · omega
    have hjn : 0 ≤ (j : Int) * n := by positivity
    have hji' : (j : Int) + 1 ≤ (i : Int) := by exact_mod_cast hji
    have hi' : (i : Int) ≤ (n : Int) - 1 := by omega
    have hlow : 0 ≤ (n : Int) * j - m + i - j - 1 := by nlinarith [hm]
    have hprod : 0 ≤ ((n : Int) - j - 1) * ((n : Int) - j - 2) := by
      apply mul_nonneg <;> omega
    have hhigh : (n : Int) * j - m + i - j - 1 < (cdm.length : Int) := by
      nlinarith [hm, hprod, hnlen]
    refine ⟨((n : Int) * j - m + i - j - 1).toNat, ?_, ?_, ?_⟩
    · rw [Int.toNat_of_nonneg hlow, hmdiv]
    · omega
    · rw [cdmGet, if_neg (by omega), pyIndex, hmdiv]
      rw [if_pos ⟨hlow, hhigh⟩]

/-- Witness for the amended C2: `n = 3`, storage `[10, 20, 30]`,
`get(2,2) = 0` and `get(2,0)` reads the in-range entry 1. -/
theorem c2_cdmGet_amended_witness :
    (2 * (10 :: 20 :: 30 :: [] : List ℚ).length = 3 * (3 - 1) ∧ 2 < 3 ∧ 0 < 3) ∧
    (cdmGet 3 (10 :: 20 :: 30 :: []) 2 2 = .ok 0 ∧
      (0 < 2 → ∃ k : Nat,
        (k : Int) = (3 : Int) * 0 - ((0 : Int) * ((0 : Int) + 1)) / 2 + 2 - 0 - 1 ∧
        k < (10 :: 20 :: 30 :: [] : List ℚ).length ∧
        cdmGet 3 (10 :: 20 :: 30 :: []) 2 0 =
          .ok ((10 :: 20 :: 30 :: [] : List ℚ).getD k 0))) :=
  ⟨⟨by decide, by decide, by decide⟩,
    by
      have h := c2_cdmGet_amended 3 (10 :: 20 :: 30 :: []) (by decide) 2 0
        (by decide) (by decide)
      exact_mod_cast h⟩

/-- Claim C9: distance-metric selection by name returns a distance
function for every name in the fixed supported set, fails with an
invalid-argument error for every string outside that set, and returns a
non-string (caller-supplied function) argument unchanged. -/
theorem c9_distance_spec :
    (∀ s ∈ supportedMetrics, distance (.str s) = .ok (.func s)) ∧
    (∀ s : String, s ∉ supportedMetrics →
      distance (.str s) = .error ("No such distance function " ++ s ++ " found")) ∧
    (∀ f : String, distance (.func f) = .ok (.func f)) := by
  refine ⟨?_, ?_, ?_⟩
  · intro s hs
    simp [distance, hs]
  · intro s hs
    simp [distance, hs]
  · intro f
    rfl

/-- Witness for C9: the supported name `"euclidean"`, the unsupported
name `"manhattan"`, and a caller-supplied function. -/
theorem c9_distance_spec_witness :
    ("euclidean" ∈ supportedMetrics ∧ "manhattan" ∉ supportedMetrics) ∧
    distance (.str "euclidean") = .ok (.func "euclidean") ∧
    distance (.str "manhattan") =
      .error ("No such distance function " ++ "manhattan" ++ " found") ∧
    distance (.func "userfn") = .ok (.func "userfn") :=
  ⟨⟨by decide, by decide⟩,
    c9_distance_spec.1 "euclidean" (by decide),
    c9_distance_spec.2.1 "manhattan" (by decide),
    c9_distance_spec.2.2 "userfn"⟩

theorem cnt_nil (t : String) : cnt [] t = 0 := rfl

theorem cnt_cons (k : String) (v : Int) (c : Counter) (t : String) :
    cnt ((k, v) :: c) t = if k = t then v else cnt c t := by
  by_cases h : k = t
  · subst h
    rw [cnt, List.find?_cons_of_pos _ (by simp)]
    simp
  · rw [cnt, List.find?_cons_of_neg _ (by simp [h]), if_neg h]
    rfl

theorem hasKey_nil (t : String) : hasKey [] t = false := rfl

theorem hasKey_cons (k : String) (v : Int) (c : Counter) (t : String) :
    hasKey ((k, v) :: c) t = if k = t then true else hasKey c t := by
  by_cases h : k = t
  · subst h
    rw [hasKey, List.find?_cons_of_pos _ (by simp)]
    simp
  · rw [hasKey, List.find?_cons_of_neg _ (by simp [h]), if_neg h]
    rfl

theorem ckeys_cons (p : String × Int) (c : Counter) :
    ckeys (p :: c) = p.1 :: ckeys c := rfl

theorem mem_ckeys_iff_hasKey (c : Counter) (t : String) :
    t ∈ ckeys c ↔ hasKey c t = true := by
  induction c with
  | nil => simp [ckeys, hasKey_nil]
  | cons p c ih =>
    rcases p with ⟨k, v⟩
    rw [ckeys_cons, hasKey_cons, List.mem_cons]
    by_cases h : k = t
    · subst h
      simp
    · rw [if_neg h, ← ih]
      constructor
      · rintro (rfl | hm)
        · exact absurd rfl h
        · exact hm
      · exact fun hm => Or.inr hm

theorem cnt_eq_zero_of_not_hasKey {c : Counter} {t : String}
    (h : hasKey c t = false) : cnt c t = 0 := by
  rcases hf : c.find? (fun p => p.1 == t) with _ | p
  · rw [cnt, hf]
  · exfalso
    rw [hasKey, hf] at h
    simp at h

theorem hasKey_of_cnt_ne_zero {c : Counter} {t : String} (h : cnt c t ≠ 0) :
    hasKey c t = true := by
  cases hk : hasKey c t
  · exact absurd (cnt_eq_zero_of_not_hasKey hk) h
  · rfl

theorem cnt_nonneg {c : Counter} (hc : nonnegCounts c) (t : String) : 0 ≤ cnt c t := by
  rcases hf : c.find? (fun p => p.1 == t) with _ | p
  · rw [cnt, hf]
  · rw [cnt, hf]
    exact hc p (List.mem_of_find?_eq_some hf)

theorem keysNodup_cons {k : String} {v : Int} {c : Counter} :
    keysNodup ((k, v) :: c) ↔ hasKey c k = false ∧ keysNodup c := by
  rw [keysNodup, ckeys, List.map_cons, List.nodup_cons]
  constructor
  · rintro ⟨h1, h2⟩
    refine ⟨?_, h2⟩
    cases hk : hasKey c k
    · rfl
    · exact absurd ((mem_ckeys_iff_hasKey c k).mpr hk) h1
  · rintro ⟨h1, h2⟩
    refine ⟨?_, h2⟩
    intro hmem
    rw [(mem_ckeys_iff_hasKey c k).mp hmem] at h1
    cases h1

theorem cnt_of_mem_nodup {c : Counter} (hc : keysNodup c) {k : String} {v : Int}
    (h : (k, v) ∈ c) : cnt c k = v := by
  induction c with
  | nil => cases h
  | cons p c ih =>
    rcases p with ⟨k0, v0⟩
    rcases keysNodup_cons.mp hc with ⟨hk0, hc'⟩
    rcases List.mem_cons.mp h with heq | hmem
    · rw [cnt_cons]
      injection heq with h1 h2
      simp [h1.symm, h2.symm]
    · have hkk0 : k0 ≠ k := by
        intro he
        subst he
        have : k0 ∈ ckeys c := by
          rw [ckeys, List.mem_map]
          exact ⟨(k0, v), hmem, rfl⟩
        rw [(mem_ckeys_iff_hasKey c k0).mp this] at hk0
        cases hk0
      rw [cnt_cons, if_neg hkk0]
      exact ih hc' hmem

theorem cnt_append (x y : Counter) (t : String) :
    cnt (x ++ y) t = if hasKey x t then cnt x t else cnt y t := by
  induction x with
  | nil => simp [hasKey_nil]
  | cons p x ih =>
    rcases p with ⟨k, v⟩
    rw [List.cons_append, cnt_cons, hasKey_cons, cnt_cons]
    by_cases h : k = t
    · simp [h]
    · simp only [if_neg h, ih]

theorem hasKey_append (x y : Counter) (t : String) :
    hasKey (x ++ y) t = (hasKey x t || hasKey y t) := by
  induction x with
  | nil => simp [hasKey_nil]
  | cons p x ih =>
    rcases p with ⟨k, v⟩
    rw [List.cons_append, hasKey_cons, hasKey_cons]
    by_cases h : k = t
    · simp [h]
    · simp only [if_neg h, ih]

theorem counterAddPart1_spec (b : Counter) : ∀ a : Counter, keysNodup a → ∀ t,
    hasKey (counterAddPart1 b a) t = (hasKey a t && decide (0 < cnt a t + cnt b t)) ∧
    cnt (counterAddPart1 b a) t =
      if hasKey a t = true ∧ 0 < cnt a t + cnt b t then cnt a t + cnt b t else 0 := by
  intro a
  induction a with
  | nil =>
    intro _ t
    simp [counterAddPart1, hasKey_nil, cnt_nil]
  | cons p a ih =>
    intro hnd t
    rcases p with ⟨k, v⟩
    rcases keysNodup_cons.mp hnd with ⟨hk, hnd'⟩
    have ih' := ih hnd' t
    rw [counterAddPart1]
    by_cases ht : k = t
    · subst ht
      have hat : hasKey a k = false := hk
      have hcat : cnt a k = 0 := cnt_eq_zero_of_not_hasKey hat
      rw [hasKey_cons, if_pos rfl, cnt_cons, if_pos rfl]
      by_cases hpos : 0 < v + cnt b k
      · rw [if_pos hpos]
        rw [hasKey_cons, if_pos rfl, cnt_cons, if_pos rfl]
        constructor
        · simp [hpos]
        · rw [if_pos ⟨rfl, hpos⟩]
      · rw [if_neg hpos]
        rcases ih' with ⟨ih1, ih2⟩
        constructor
        · rw [ih1, hat]
          simp [hpos]
        · rw [ih2, if_neg (by rw [hat]; rintro ⟨h1, _⟩; cases h1),
            if_neg (by rintro ⟨_, h2⟩; exact hpos h2)]
    · rw [hasKey_cons, if_neg ht, cnt_cons, if_neg ht]
      rcases ih' with ⟨ih1, ih2⟩
      by_cases hpos : 0 < v + cnt b k
      · rw [if_pos hpos, hasKey_cons, if_neg ht, cnt_cons, if_neg ht]
        exact ⟨ih1, ih2⟩
      · rw [if_neg hpos]
        exact ⟨ih1, ih2⟩

theorem counterAddPart2_spec (a : Counter) : ∀ b : Counter, keysNodup b → ∀ t,
    hasKey (b.filter (fun p => !hasKey a p.1 && decide (0 < p.2))) t =
      (!hasKey a t && (hasKey b t && decide (0 < cnt b t))) ∧
    cnt (b.filter (fun p => !hasKey a p.1 && decide (0 < p.2))) t =
      if hasKey a t = false ∧ 0 < cnt b t then cnt b t else 0 := by
  intro b
  induction b with
  | nil =>
    intro _ t
    simp [hasKey_nil, cnt_nil]
  | cons p b ih =>
    intro hnd t
    rcases p with ⟨k, v⟩
    rcases keysNodup_cons.mp hnd with ⟨hk, hnd'⟩
    rcases ih hnd' t with ⟨ih1, ih2⟩
    rw [List.filter_cons]
    by_cases ht : k = t
    · subst ht
      have hcbt : cnt b k = 0 := cnt_eq_zero_of_not_hasKey hk
      by_cases hcond : (!hasKey a k && decide (0 < v)) = true
      · rcases Bool.and_eq_true_iff.mp hcond with ⟨h1, h2⟩
        have h1' : hasKey a k = false := by
          cases hx : hasKey a k
          · rfl
          · rw [hx] at h1
            simp at h1
        rw [if_pos hcond]
        constructor
        · rw [hasKey_cons, if_pos rfl, hasKey_cons, if_pos rfl, cnt_cons, if_pos rfl]
          rw [h1', h2]
          rfl
        · rw [cnt_cons, if_pos rfl, cnt_cons, if_pos rfl]
          rw [if_pos ⟨h1', of_decide_eq_true h2⟩]
      · rw [if_neg hcond]
        constructor
        · rw [ih1, hk, hasKey_cons, if_pos rfl, cnt_cons, if_pos rfl]
          cases hx : hasKey a k
          · have hv : decide (0 < v) = false := by
              cases hv' : decide (0 < v)
              · rfl
              · rw [hx, hv'] at hcond
                simp at hcond
            rw [hv]
            simp
          · simp
        · rw [ih2, hcbt, cnt_cons, if_pos rfl]
          rw [if_neg (by rintro ⟨_, h2⟩; exact absurd h2 (lt_irrefl 0))]
          rw [if_neg (by
            rintro ⟨h1'', h2''⟩
            exact hcond (by rw [h1'']; simp [h2'']))]
    · rw [hasKey_cons, if_neg ht, cnt_cons, if_neg ht]
      by_cases hcond : (!hasKey a k && decide (0 < v)) = true
      · rw [if_pos hcond, hasKey_cons, if_neg ht, cnt_cons, if_neg ht]
        exact ⟨ih1, ih2⟩
      · rw [if_neg hcond]
        exact ⟨ih1, ih2⟩

/-- As a token → count mapping, `Counter.__add__` is pointwise addition
(for well-formed counters with nonnegative counts). -/
theorem cnt_counterAdd (a b : Counter) (ha : keysNodup a) (hb : keysNodup b)
    (hna : nonnegCounts a) (hnb : nonnegCounts b) (t : String) :
    cnt (counterAdd a b) t = cnt a t + cnt b t := by
  rcases counterAddPart1_spec b a ha t with ⟨h11, h12⟩
  rcases counterAddPart2_spec a b hb t with ⟨h21, h22⟩
  rw [counterAdd, cnt_append, h11, h12]
  cases hx : hasKey a t
  · have hca : cnt a t = 0 := cnt_eq_zero_of_not_hasKey hx
    rw [if_neg (by simp)]
    rw [h22]
    by_cases hpos : 0 < cnt b t
    · rw [if_pos ⟨hx, hpos⟩, hca, zero_add]
    · have hcb : cnt b t = 0 := le_antisymm (not_lt.mp hpos) (cnt_nonneg hnb t)
      rw [if_neg (by rintro ⟨_, h⟩; exact hpos h), hca, hcb]
      norm_num
  · by_cases hpos : 0 < cnt a t + cnt b t
    · rw [if_pos (by simp [hpos])]
      rw [if_pos ⟨rfl, hpos⟩]
    · have hga := cnt_nonneg hna t
      have hgb := cnt_nonneg hnb t
      have h0a : cnt a t = 0 := by omega
      have h0b : cnt b t = 0 := by omega
      rw [if_neg (by simp [hpos])]
      rw [h22, if_neg (by rw [hx]; rintro ⟨h, _⟩; cases h)]
      omega

theorem mem_counterAddPart1_pos (b : Counter) :
    ∀ (a : Counter) (p : String × Int), p ∈ counterAddPart1 b a → 0 < p.2 := by
  intro a
  induction a with
  | nil => intro p hp; cases hp
  | cons q a ih =>
    intro p hp
    rw [counterAddPart1] at hp
    by_cases hpos : 0 < q.2 + cnt b q.1
    · rw [if_pos hpos] at hp
      rcases List.mem_cons.mp hp with rfl | hp'
      · exact hpos
      · exact ih p hp'
    · rw [if_neg hpos] at hp
      exact ih p hp

/-- Every count stored in a Counter sum is positive, hence nonnegative. -/
theorem nonnegCounts_counterAdd (a b : Counter) : nonnegCounts (counterAdd a b) := by
  intro p hp
  rw [counterAdd] at hp
  rcases List.mem_append.mp hp with h | h
  · exact le_of_lt (mem_counterAddPart1_pos b a p h)
  · rcases Bool.and_eq_true_iff.mp (List.mem_filter.mp h).2 with ⟨_, h2⟩
    exact le_of_lt (of_decide_eq_true h2)

theorem keysNodup_counterAddPart1 (b : Counter) :
    ∀ (a : Counter), keysNodup a → keysNodup (counterAddPart1 b a) := by
  intro a
  induction a with
  | nil => intro _; simp [counterAddPart1, keysNodup, ckeys]
  | cons q a ih =>
    intro hnd
    rcases q with ⟨k, v⟩
    rcases keysNodup_cons.mp hnd with ⟨hk, hnd'⟩
    rw [counterAddPart1]
    by_cases hpos : 0 < v + cnt b k
    · rw [if_pos hpos]
      rw [keysNodup_cons]
      refine ⟨?_, ih hnd'⟩
      rcases counterAddPart1_spec b a hnd' k with ⟨h1, _⟩
      rw [h1, hk]
      rfl
    · rw [if_neg hpos]
      exact ih hnd'

theorem keysNodup_filter (g : String × Int → Bool) (b : Counter)
    (hb : keysNodup b) : keysNodup (b.filter g) := by
  rw [keysNodup, ckeys]
  exact List.Nodup.sublist ((List.filter_sublist b).map (fun p => p.1)) hb

theorem keysNodup_counterAdd (a b : Counter) (ha : keysNodup a) (hb : keysNodup b) :
    keysNodup (counterAdd a b) := by
  rw [counterAdd, keysNodup, ckeys, List.map_append]
  apply List.Nodup.append
  · exact keysNodup_counterAddPart1 b a ha
  · exact keysNodup_filter _ b hb
  · intro t ht1 ht2
    have h1 : hasKey (counterAddPart1 b a) t = true :=
      (mem_ckeys_iff_hasKey _ t).mp ht1
    have h2 : hasKey (b.filter (fun p => !hasKey a p.1 && decide (0 < p.2))) t = true :=
      (mem_ckeys_iff_hasKey _ t).mp ht2
    rw [(counterAddPart1_spec b a ha t).1] at h1
    rw [(counterAddPart2_spec a b hb t).1] at h2
    rcases Bool.and_eq_true_iff.mp h1 with ⟨ha1, _⟩
    rcases Bool.and_eq_true_iff.mp h2 with ⟨ha2, _⟩
    rw [ha1] at ha2
    cases ha2

/-- Claim C8: Stream addition (Counter addition, viewed as a
token-to-count mapping with missing keys read as 0) is commutative and
associative for streams with nonnegative counts. -/
theorem c8_stream_add_comm_assoc (a b c : Counter)
    (ha : keysNodup a) (hb : keysNodup b) (hc : keysNodup c)
    (hna : nonnegCounts a) (hnb : nonnegCounts b) (hnc : nonnegCounts c) :
    (∀ t, cnt (counterAdd a b) t = cnt (counterAdd b a) t) ∧
    (∀ t, cnt (counterAdd (counterAdd a b) c) t =
      cnt (counterAdd a (counterAdd b c)) t) := by
  constructor
  · intro t
    rw [cnt_counterAdd a b ha hb hna hnb t, cnt_counterAdd b a hb ha hnb hna t]
    omega
  · intro t
    rw [cnt_counterAdd (counterAdd a b) c (keysNodup_counterAdd a b ha hb) hc
      (nonnegCounts_counterAdd a b) hnc t]
    rw [cnt_counterAdd a b ha hb hna hnb t]
    rw [cnt_counterAdd a (counterAdd b c) ha (keysNodup_counterAdd b c hb hc)
      hna (nonnegCounts_counterAdd b c) t]
    rw [cnt_counterAdd b c hb hc hnb hnc t]
    omega

/-- Witness for C8 on three concrete streams. -/
theorem c8_stream_add_comm_assoc_witness :
    (keysNodup (("a", 2) :: ("b", 1) :: []) ∧ keysNodup (("b", 3) :: []) ∧
      keysNodup (("a", 1) :: ("c", 4) :: []) ∧
      nonnegCounts (("a", 2) :: ("b", 1) :: []) ∧ nonnegCounts (("b", 3) :: []) ∧
      nonnegCounts (("a", 1) :: ("c", 4) :: [])) ∧
    ((∀ t, cnt (counterAdd (("a", 2) :: ("b", 1) :: []) (("b", 3) :: [])) t =
        cnt (counterAdd (("b", 3) :: []) (("a", 2) :: ("b", 1) :: [])) t) ∧
      (∀ t, cnt (counterAdd (counterAdd (("a", 2) :: ("b", 1) :: []) (("b", 3) :: []))
          (("a", 1) :: ("c", 4) :: [])) t =
        cnt (counterAdd (("a", 2) :: ("b", 1) :: [])
          (counterAdd (("b", 3) :: []) (("a", 1) :: ("c", 4) :: []))) t)) :=
  ⟨⟨by decide, by decide, by decide, by decide, by decide, by decide⟩,
    c8_stream_add_comm_assoc (("a", 2) :: ("b", 1) :: []) (("b", 3) :: [])
      (("a", 1) :: ("c", 4) :: []) (by decide) (by decide) (by decide)
      (by decide) (by decide) (by decide)⟩

theorem foldl_counterAdd_spec :
    ∀ (streams : List Counter) (acc : Counter),
      keysNodup acc → nonnegCounts acc →
      (∀ s ∈ streams, keysNodup s ∧ nonnegCounts s) →
      keysNodup (streams.foldl counterAdd acc) ∧
      nonnegCounts (streams.foldl counterAdd acc) ∧
      ∀ t, cnt (streams.foldl counterAdd acc) t =
        cnt acc t + (streams.map (fun s => cnt s t)).sum := by
  intro streams
  induction streams with
  | nil =>
    intro acc h1 h2 _
    exact ⟨h1, h2, fun t => by simp⟩
  | cons s streams ih =>
    intro acc h1 h2 hs
    have hsh := hs s (List.mem_cons_self s streams)
    have hrest : ∀ x ∈ streams, keysNodup x ∧ nonnegCounts x :=
      fun x hx => hs x (List.mem_cons_of_mem s hx)
    rcases ih (counterAdd acc s) (keysNodup_counterAdd acc s h1 hsh.1)
      (nonnegCounts_counterAdd acc s) hrest with ⟨g1, g2, g3⟩
    rw [List.foldl_cons]
    refine ⟨g1, g2, fun t => ?_⟩
    rw [g3 t, cnt_counterAdd acc s h1 hsh.1 h2 hsh.2 t]
    rw [List.map_cons, List.sum_cons]
    omega

theorem totalCounter_spec (streams : List Counter)
    (hs : ∀ s ∈ streams, keysNodup s ∧ nonnegCounts s) :
    keysNodup (totalCounter streams) ∧ nonnegCounts (totalCounter streams) ∧
    ∀ t, cnt (totalCounter streams) t = (streams.map (fun s => cnt s t)).sum := by
  rcases foldl_counterAdd_spec streams [] (by simp [keysNodup, ckeys])
    (by intro p hp; cases hp) hs with ⟨g1, g2, g3⟩
  refine ⟨g1, g2, fun t => ?_⟩
  rw [totalCounter, g3 t, cnt_nil, zero_add]

theorem idxOf?_isSome_of_mem {t : String} {l : List String} (h : t ∈ l) :
    ∃ j, idxOf? t l = some j := by
  induction l with
  | nil => cases h
  | cons k ks ih =>
    rw [idxOf?]
    by_cases hk : k = t
    · exact ⟨0, by rw [if_pos hk]⟩
    · rcases List.mem_cons.mp h with rfl | hm
      · exact absurd rfl hk
      · rcases ih hm with ⟨j, hj⟩
        exact ⟨j + 1, by rw [if_neg hk, hj]; rfl⟩

theorem idxOf?_getElem {t : String} {l : List String} {j : Nat}
    (h : idxOf? t l = some j) : j < l.length ∧ l[j]? = some t := by
  induction l generalizing j with
  | nil => cases h
  | cons k ks ih =>
    rw [idxOf?] at h
    by_cases hk : k = t
    · rw [if_pos hk] at h
      injection h with h
      subst h
      simp [hk]
    · rw [if_neg hk] at h
      rcases hj : idxOf? t ks with _ | j'
      · rw [hj] at h
        cases h
      · rw [hj] at h
        injection h with h
        subst h
        rcases ih hj with ⟨h1, h2⟩
        constructor
        · simp only [List.length_cons]
          omega
        · simpa using h2

theorem idxOf?_inj {t u : String} {l : List String} {j : Nat}
    (ht : idxOf? t l = some j) (hu : idxOf? u l = some j) : t = u := by
  have h1 := (idxOf?_getElem ht).2
  have h2 := (idxOf?_getElem hu).2
  have h3 : (some t : Option String) = some u := by rw [← h1, ← h2]
  exact Option.some.inj h3

theorem writeVec_spec (ids : List String) :
    ∀ (c : Counter) (v : List ℚ), keysNodup c → (∀ p ∈ c, p.1 ∈ ids) →
      v.length = ids.length →
      ∃ w, writeVec ids c v = .ok w ∧ w.length = ids.length ∧
        ∀ t j, idxOf? t ids = some j →
          w[j]? = if hasKey c t = true then some ((cnt c t : ℚ)) else v[j]? := by
  intro c
  induction c with
  | nil =>
    intro v _ _ hv
    refine ⟨v, rfl, hv, fun t j _ => ?_⟩
    rw [hasKey_nil]
    simp
  | cons p c ih =>
    intro v hnd hsub hv
    rcases p with ⟨k, n⟩
    rcases keysNodup_cons.mp hnd with ⟨hk, hnd'⟩
    rcases idxOf?_isSome_of_mem (hsub (k, n) (List.mem_cons_self _ _)) with ⟨j0, hj0⟩
    have hj0lt : j0 < ids.length := (idxOf?_getElem hj0).1
    rcases ih (v.set j0 ((n : ℚ))) hnd'
      (fun q hq => hsub q (List.mem_cons_of_mem _ hq))
      (by rw [List.length_set]; exact hv) with ⟨w, hw, hwlen, hwspec⟩
    refine ⟨w, ?_, hwlen, ?_⟩
    · rw [writeVec, hj0]
      exact hw
    · intro t j hj
      by_cases ht : k = t
      · subst ht
        have hjj : j = j0 := by
          rw [hj] at hj0
          injection hj0
        subst hjj
        rw [hwspec k j hj, hasKey_cons, if_pos rfl, cnt_cons, if_pos rfl]
        rw [if_neg (by rw [hk]; intro hfalse; cases hfalse)]
        rw [if_pos rfl]
        rw [List.getElem?_set_self (by rw [hv]; exact hj0lt)]
      · have hjj : j ≠ j0 := by
          intro he
          subst he
          exact ht (idxOf?_inj hj0 hj)
        rw [hwspec t j hj, hasKey_cons, if_neg ht, cnt_cons, if_neg ht]
        rw [List.getElem?_set_ne hjj.symm]

theorem mapExcept_spec (f : Counter → Except String (List ℚ)) :
    ∀ (l : List Counter), (∀ x ∈ l, ∃ y, f x = .ok y) →
      ∃ ys, mapExcept f l = .ok ys ∧ ys.length = l.length ∧
        ∀ i, i < l.length → f (l.getD i []) = .ok (ys.getD i []) := by
  intro l
  induction l with
  | nil => exact fun _ => ⟨[], rfl, rfl, fun i hi => absurd hi (by simp)⟩
  | cons x xs ih =>
    intro h
    rcases h x (List.mem_cons_self x xs) with ⟨y, hy⟩
    rcases ih (fun z hz => h z (List.mem_cons_of_mem x hz)) with ⟨ys, hys, hlen, hspec⟩
    refine ⟨y :: ys, ?_, by simp [hlen], ?_⟩
    · rw [mapExcept, hy, hys]
    · intro i hi
      cases i with
      | zero => simpa using hy
      | succ i =>
        simp only [List.getD_cons_succ]
        exact hspec i (by simpa using hi)

theorem raw_features_full_spec (streams : List Counter)
    (hnd : ∀ s ∈ streams, keysNodup s) (hpos : ∀ s ∈ streams, posCounts s) :
    ∃ vecs, raw_features streams = .ok (vecs, ckeys (totalCounter streams)) ∧
      vecs.length = streams.length ∧
      ∀ i, i < streams.length → ∀ t, t ∈ ckeys (totalCounter streams) →
        ∃ j, idxOf? t (ckeys (totalCounter streams)) = some j ∧
          (vecs.getD i [])[j]? = some ((cnt (streams.getD i []) t : ℚ)) := by
  have hboth : ∀ s ∈ streams, keysNodup s ∧ nonnegCounts s :=
    fun s hs => ⟨hnd s hs, fun p hp => le_of_lt (hpos s hs p hp)⟩
  rcases totalCounter_spec streams hboth with ⟨htnd, htnn, htcnt⟩
  have hsub : ∀ s ∈ streams, ∀ p ∈ s, p.1 ∈ ckeys (totalCounter streams) := by
    intro s hs p hp
    rw [mem_ckeys_iff_hasKey]
    apply hasKey_of_cnt_ne_zero
    rw [htcnt p.1]
    have hmem : cnt s p.1 ∈ streams.map (fun s => cnt s p.1) :=
      List.mem_map.mpr ⟨s, hs, rfl⟩
    have hle : cnt s p.1 ≤ (streams.map (fun s => cnt s p.1)).sum :=
      List.single_le_sum (by
        intro x hx
        rcases List.mem_map.mp hx with ⟨s', hs', rfl⟩
        exact cnt_nonneg (hboth s' hs').2 p.1) _ hmem
    have hcp : cnt s p.1 = p.2 :=
      cnt_of_mem_nodup (hnd s hs) (by rw [Prod.mk.eta]; exact hp)
    have hp2 : 0 < p.2 := hpos s hs p hp
    omega
  have hexists : ∀ s ∈ streams, ∃ y, writeVec (ckeys (totalCounter streams)) s
      (List.replicate (ckeys (totalCounter streams)).length 0) = .ok y := by
    intro s hs
    rcases writeVec_spec (ckeys (totalCounter streams)) s
      (List.replicate (ckeys (totalCounter streams)).length 0) (hnd s hs) (hsub s hs)
      (by rw [List.length_replicate]) with ⟨w, hw, _, _⟩
    exact ⟨w, hw⟩
  rcases mapExcept_spec _ streams hexists with ⟨vecs, hvecs, hlen, hspec⟩
  refine ⟨vecs, ?_, hlen, ?_⟩
  · rw [raw_features, hvecs]
  · intro i hi t ht
    have hgetd : streams.getD i [] = streams[i] := by
      rw [List.getD_eq_getElem?_getD, List.getElem?_eq_getElem hi]
      rfl
    have hmem : streams.getD i [] ∈ streams := by
      rw [hgetd]
      exact List.getElem_mem hi
    rcases idxOf?_isSome_of_mem ht with ⟨j, hj⟩
    refine ⟨j, hj, ?_⟩
    have hfi := hspec i hi
    rcases writeVec_spec (ckeys (totalCounter streams)) (streams.getD i [])
      (List.replicate (ckeys (totalCounter streams)).length 0) (hnd _ hmem) (hsub _ hmem)
      (by rw [List.length_replicate]) with ⟨w, hw, hwlen, hwspec⟩
    rw [hw] at hfi
    have hveq : vecs.getD i [] = w := (Except.ok.inj hfi).symm
    rw [hveq, hwspec t j hj]
    by_cases hk : hasKey (streams.getD i []) t = true
    · rw [if_pos hk]
    · have hk' : hasKey (streams.getD i []) t = false := by
        cases hx : hasKey (streams.getD i []) t
        · rfl
        · exact absurd hx hk
      rw [if_neg hk, cnt_eq_zero_of_not_hasKey hk']
      rw [List.getElem?_replicate_of_lt (idxOf?_getElem hj).1]
      norm_num

/-- Claim C3: for every ordered collection of streams (distinct keys,
positive counts), `raw_features` succeeds and for every stream `i` and
every token `t` of the vocabulary, `vector[i][index[t]]` equals stream
`i`'s count for `t` — in particular 0 when `t` is absent from stream
`i`. -/
theorem c3_raw_features_spec (streams : List Counter)
    (hnd : ∀ s ∈ streams, keysNodup s) (hpos : ∀ s ∈ streams, posCounts s) :
    ∃ vecs, raw_features streams = .ok (vecs, ckeys (totalCounter streams)) ∧
      vecs.length = streams.length ∧
      ∀ i, i < streams.length → ∀ t, t ∈ ckeys (totalCounter streams) →
        ∃ j, idxOf? t (ckeys (totalCounter streams)) = some j ∧
          (vecs.getD i [])[j]? = some ((cnt (streams.getD i []) t : ℚ)) :=
  raw_features_full_spec streams hnd hpos

/-- Witness for C3 on the streams `{a:1, b:1}` and `{a:1, c:1}`. -/
theorem c3_raw_features_spec_witness :
    ((∀ s ∈ exampleStreams, keysNodup s) ∧ (∀ s ∈ exampleStreams, posCounts s)) ∧
    (∃ vecs, raw_features exampleStreams =
        .ok (vecs, ckeys (totalCounter exampleStreams)) ∧
      vecs.length = exampleStreams.length ∧
      ∀ i, i < exampleStreams.length → ∀ t, t ∈ ckeys (totalCounter exampleStreams) →
        ∃ j, idxOf? t (ckeys (totalCounter exampleStreams)) = some j ∧
          (vecs.getD i [])[j]? = some ((cnt (exampleStreams.getD i []) t : ℚ))) :=
  ⟨⟨by decide, by decide⟩,
    c3_raw_features_spec exampleStreams (by decide) (by decide)⟩

theorem getD_zipWith (f : ℚ → ℚ → ℚ) :
    ∀ (u w : List ℚ) (j : Nat), j < u.length → j < w.length →
      (List.zipWith f u w).getD j 0 = f (u.getD j 0) (w.getD j 0) := by
  intro u
  induction u with
  | nil => intro w j hj _; simp at hj
  | cons x u ih =>
    intro w j hj hw
    rcases w with _ | ⟨y, w⟩
    · simp at hw
    · rcases j with _ | j
      · simp
      · simp only [List.zipWith_cons_cons, List.getD_cons_succ]
        exact ih w j (by simpa using hj) (by simpa using hw)

theorem total_foldl_spec :
    ∀ (vs : List (List ℚ)) (acc : List ℚ) (m : Nat), acc.length = m →
      (∀ v ∈ vs, v.length = m) →
      (vs.foldl (fun acc w => List.zipWith (fun x y => x + y) acc w) acc).length = m ∧
      ∀ j, j < m →
        (vs.foldl (fun acc w => List.zipWith (fun x y => x + y) acc w) acc).getD j 0 =
          acc.getD j 0 + (vs.map (fun v => v.getD j 0)).sum := by
  intro vs
  induction vs with
  | nil =>
    intro acc m hacc _
    exact ⟨hacc, fun j _ => by simp⟩
  | cons w vs ih =>
    intro acc m hacc hall
    have hw : w.length = m := hall w (List.mem_cons_self w vs)
    have hacc' : (List.zipWith (fun x y => x + y) acc w).length = m := by
      rw [List.length_zipWith, hacc, hw]
      omega
    rcases ih (List.zipWith (fun x y => x + y) acc w) m hacc'
      (fun v hv => hall v (List.mem_cons_of_mem w hv)) with ⟨g1, g2⟩
    rw [List.foldl_cons]
    refine ⟨g1, fun j hj => ?_⟩
    rw [g2 j hj, getD_zipWith _ acc w j (by omega) (by omega)]
    rw [List.map_cons, List.sum_cons]
    ring

theorem total_spec (features : List (List ℚ)) (m : Nat) (hne : features ≠ [])
    (hm : ∀ v ∈ features, v.length = m) :
    (total features).length = m ∧
    ∀ j, j < m →
      (total features).getD j 0 = (features.map (fun v => v.getD j 0)).sum := by
  rcases features with _ | ⟨v0, vs⟩
  · exact absurd rfl hne
  · have hv0 : v0.length = m := hm v0 (List.mem_cons_self v0 vs)
    rcases total_foldl_spec vs v0 m hv0
      (fun v hv => hm v (List.mem_cons_of_mem v0 hv)) with ⟨g1, g2⟩
    refine ⟨g1, fun j hj => ?_⟩
    rw [total, g2 j hj, List.map_cons, List.sum_cons]

theorem sum_map_div (c : ℚ) : ∀ (l : List ℚ),
    (l.map (fun x => x / c)).sum = l.sum / c := by
  intro l
  induction l with
  | nil => simp
  | cons x l ih =>
    rw [List.map_cons, List.sum_cons, List.sum_cons, ih, add_div]

/-- Claim C5: on a collection of equal-width vectors in which no column
has a zero total, `simple` normalization (division of every element by
its column's grand total) makes every column of the result sum to
exactly 1. -/
theorem c5_normalize_simple_colsums (features : List (List ℚ)) (m : Nat)
    (hne : features ≠ []) (hm : ∀ v ∈ features, v.length = m)
    (hnz : ∀ x ∈ total features, x ≠ 0) :
    (total (normalize features)).length = m ∧
    ∀ j, j < m → (total (normalize features)).getD j 0 = 1 := by
  rcases total_spec features m hne hm with ⟨hT1, hT2⟩
  have hnlen : ∀ v ∈ normalize features, v.length = m := by
    intro v hv
    rcases List.mem_map.mp hv with ⟨w, hw, rfl⟩
    rw [List.length_zipWith, hm w hw, hT1]
    omega
  have hnne : normalize features ≠ [] := by
    rcases features with _ | ⟨v0, vs⟩
    · exact absurd rfl hne
    · simp [normalize]
  rcases total_spec (normalize features) m hnne hnlen with ⟨hN1, hN2⟩
  refine ⟨hN1, fun j hj => ?_⟩
  have hTj : (total features).getD j 0 ≠ 0 := by
    apply hnz
    have : (total features).getD j 0 = (total features).get ⟨j, by omega⟩ := by
      rw [List.getD_eq_getElem?_getD, List.getElem?_eq_getElem (by omega)]
      rfl
    rw [this, List.get_eq_getElem]
    exact List.getElem_mem (by omega)
  rw [hN2 j hj]
  have hmap : (normalize features).map (fun v => v.getD j 0) =
      (features.map (fun v => v.getD j 0)).map
        (fun x => x / (total features).getD j 0) := by
    rw [normalize, List.map_map, List.map_map]
    apply List.map_congr_left
    intro v hv
    simp only [Function.comp]
    exact getD_zipWith _ v (total features) j (by rw [hm v hv]; omega) (by omega)
  rw [hmap, sum_map_div, ← hT2 j hj]
  exact div_self hTj

/-- Witness for C5 on the vectors `[1, 3]` and `[1, 1]`. -/
theorem c5_normalize_simple_colsums_witness :
    (((1 : ℚ) :: 3 :: []) :: ((1 : ℚ) :: 1 :: []) :: [] ≠ ([] : List (List ℚ)) ∧
      (∀ v ∈ ((1 : ℚ) :: 3 :: []) :: ((1 : ℚ) :: 1 :: []) :: [], v.length = 2) ∧
      (∀ x ∈ total (((1 : ℚ) :: 3 :: []) :: ((1 : ℚ) :: 1 :: []) :: []), x ≠ 0)) ∧
    ((total (normalize (((1 : ℚ) :: 3 :: []) :: ((1 : ℚ) :: 1 :: []) :: []))).length = 2 ∧
      ∀ j, j < 2 →
        (total (normalize (((1 : ℚ) :: 3 :: []) :: ((1 : ℚ) :: 1 :: []) :: []))).getD j 0 = 1) :=
  ⟨⟨by decide, by decide, by
      simp only [total, List.foldl_cons, List.foldl_nil, List.zipWith_cons_cons,
        List.zipWith_nil_right, List.forall_mem_cons, List.not_mem_nil]
      norm_num⟩,
    c5_normalize_simple_colsums (((1 : ℚ) :: 3 :: []) :: ((1 : ℚ) :: 1 :: []) :: []) 2
      (by decide) (by decide) (by
        simp only [total, List.foldl_cons, List.foldl_nil, List.zipWith_cons_cons,
          List.zipWith_nil_right, List.forall_mem_cons, List.not_mem_nil]
        norm_num)⟩

theorem filterIndices3_sublist (opts : DelOpts) (tot props : List ℚ) (l : List Nat) :
    List.Sublist (filterIndices3 opts tot props l) l := by
  rcases opts with ⟨mo, xo, mf, xf, ex⟩
  rcases mo with _ | q1 <;> rcases xo with _ | q2 <;> rcases mf with _ | q3 <;>
    simp only [filterIndices3] <;>
    first
      | exact List.Sublist.refl l
      | exact List.filter_sublist l
      | exact (List.filter_sublist _).trans (List.filter_sublist l)
      | exact ((List.filter_sublist _).trans (List.filter_sublist _)).trans
          (List.filter_sublist l)

theorem filterIndices_sublist (opts : DelOpts) (tot props : List ℚ) (l : List Nat) :
    List.Sublist (filterIndices opts tot props l) l := by
  rw [filterIndices]
  rcases hxf : opts.maxfreq with _ | q
  · exact filterIndices3_sublist opts tot props l
  · exact (List.filter_sublist _).trans (filterIndices3_sublist opts tot props l)

theorem mem_filterIndices3_iff (opts : DelOpts) (tot props : List ℚ) (l : List Nat)
    (i : Nat) :
    i ∈ filterIndices3 opts tot props l ↔ i ∈ l ∧
      (∀ q, opts.minocc = some q → q ≤ tot.getD i 0) ∧
      (∀ q, opts.maxocc = some q → tot.getD i 0 ≤ q) ∧
      (∀ q, opts.minfreq = some q → q ≤ props.getD i 0) := by
  rcases opts with ⟨mo, xo, mf, xf, ex⟩
  rcases mo with _ | q1 <;> rcases xo with _ | q2 <;> rcases mf with _ | q3 <;>
    simp [filterIndices3, List.mem_filter] <;> tauto

theorem mem_filterIndices_iff (opts : DelOpts) (tot props : List ℚ) (l : List Nat)
    (i : Nat) :
    i ∈ filterIndices opts tot props l ↔ i ∈ l ∧
      (∀ q, opts.minocc = some q → q ≤ tot.getD i 0) ∧
      (∀ q, opts.maxocc = some q → tot.getD i 0 ≤ q) ∧
      (∀ q, opts.minfreq = some q → q ≤ props.getD i 0) ∧
      (∀ q, opts.maxfreq = some q → props.getD i 0 ≤ q) := by
  rw [filterIndices]
  rcases hxf : opts.maxfreq with _ | q
  · rw [mem_filterIndices3_iff]
    simp [hxf]
  · rw [List.mem_filter, mem_filterIndices3_iff]
    simp [hxf]
    tauto

theorem optsLen_eq_zero_none {opts : DelOpts} (h : optsLen opts = 0) :
    opts.minocc = none ∧ opts.maxocc = none ∧ opts.minfreq = none ∧
      opts.maxfreq = none := by
  rcases opts with ⟨mo, xo, mf, xf, ex⟩
  rcases mo with _ | q1 <;> rcases xo with _ | q2 <;> rcases mf with _ | q3 <;>
    rcases xf with _ | q4 <;> simp_all [optsLen]

/-- Functional correctness of `delete_features` in `feats/gen.py`: the
reduction map is a strictly ascending list of original column indices,
containing exactly the indices that satisfy every supplied bound; the new
vectors consist of exactly those columns in that order; no thresholds is
a no-op with the identity map. -/
theorem delete_features_spec (features : List (List ℚ)) (opts : DelOpts) (m : Nat)
    (hne : features ≠ []) (hm : ∀ v ∈ features, v.length = m) :
    ∃ keep : List Nat,
      delete_features features opts =
        .ok ((if optsLen opts = 0 then features
          else features.map (fun v => keep.map (fun i => v.getD i 0))), keep) ∧
      (optsLen opts = 0 → keep = List.range m) ∧
      List.Pairwise (· < ·) keep ∧
      ∀ i, i ∈ keep ↔ i < m ∧
        (∀ q, opts.minocc = some q → q ≤ (total features).getD i 0) ∧
        (∀ q, opts.maxocc = some q → (total features).getD i 0 ≤ q) ∧
        (∀ q, opts.minfreq = some q → q ≤ (proportions features).getD i 0) ∧
        (∀ q, opts.maxfreq = some q → (proportions features).getD i 0 ≤ q) := by
  rcases features with _ | ⟨v0, vs⟩
  · exact absurd rfl hne
  · have hv0 : v0.length = m := hm v0 (List.mem_cons_self v0 vs)
    by_cases h0 : optsLen opts = 0
    · rcases optsLen_eq_zero_none h0 with ⟨e1, e2, e3, e4⟩
      refine ⟨List.range m, ?_, fun _ => rfl, List.pairwise_lt_range m, ?_⟩
      · rw [delete_features, if_pos h0, if_pos h0, hv0]
      · intro i
        simp [List.mem_range, e1, e2, e3, e4]
    · refine ⟨filterIndices opts (total (v0 :: vs)) (proportions (v0 :: vs))
        (List.range v0.length), ?_, fun h => absurd h h0, ?_, ?_⟩
      · rw [delete_features, if_neg h0, if_neg h0]
      · exact List.Pairwise.sublist
          (filterIndices_sublist opts _ _ (List.range v0.length))
          (List.pairwise_lt_range v0.length)
      · intro i
        rw [mem_filterIndices_iff, List.mem_range, hv0]

/-- Claim C4 (failing evaluation of `FeatureSet.delete_features`): with a
`maxfreq` bound the filter reads the never-assigned attribute
`self.propsx` and raises AttributeError; with a `minocc` bound that
actually deletes a column, rebuilding `feature_to_id` hits the undefined
name `id_to_feature` and raises NameError.  The claimed column filtering
is never performed by this variant. -/
theorem c4_deleteFeaturesFS_crashes :
    deleteFeaturesFS (((1 : ℚ) :: 0 :: []) :: ((1 : ℚ) :: 1 :: []) :: [])
      ⟨none, none, none, some 1, []⟩ =
      .error "AttributeError: FeatureSet instance has no attribute propsx" ∧
    deleteFeaturesFS (((1 : ℚ) :: 0 :: []) :: [])
      ⟨some 1, none, none, none, []⟩ =
      .error "NameError: global name id_to_feature is not defined" := by
  constructor
  · rfl
  · rfl

theorem normalizeFS_none (logFn : ℚ → ℚ) (v : List (List ℚ)) :
    normalizeFS logFn "none" v = .ok v := by
  rw [normalizeFS, if_neg (by decide), if_neg (by decide), if_pos rfl]

theorem processFS_none (logFn : ℚ → ℚ) (vecs : List (List ℚ)) (kwargs : DelOpts) :
    processFS logFn vecs kwargs "none" = deleteFeaturesFS vecs kwargs := by
  rw [processFS]
  rcases h : deleteFeaturesFS vecs kwargs with e | v
  · rfl
  · exact normalizeFS_none logFn v

theorem deleteFeaturesFS_no_thresholds (vecs : List (List ℚ)) (hne : vecs ≠ [])
    (extra : List String) :
    deleteFeaturesFS vecs ⟨none, none, none, none, extra⟩ = .ok vecs := by
  rcases vecs with _ | ⟨v0, vs⟩
  · exact absurd rfl hne
  · rw [deleteFeaturesFS]
    rcases extra with _ | ⟨e, es⟩
    · simp [optsLen]
    · rw [if_neg (by simp [optsLen])]
      simp [filterIndices3, List.length_range]

/-- Claim C10: the `FeatureSet` constructor never applies any
normalization.  `self.process(kwargs)` passes the keyword-options dict
positionally as the delete-options argument, so `normalize` always runs
with method `'none'` (first conjunct: for EVERY kwargs the constructor's
vectors are exactly the delete-features result, normalization being the
identity); in particular `FeatureSet(corpus, norm='simple')` produces the
raw, unnormalized count vectors, identical to `FeatureSet(corpus)`. -/
theorem c10_featureSetInit_never_normalizes (logFn : ℚ → ℚ) (corpus : List Counter)
    (hne : corpus ≠ []) (hnd : ∀ s ∈ corpus, keysNodup s)
    (hpos : ∀ s ∈ corpus, posCounts s) :
    (∀ kwargs, featureSetInit logFn corpus kwargs =
      match raw_features corpus with
      | .ok r => deleteFeaturesFS r.1 kwargs
      | .error e => .error e) ∧
    (∃ vecs, raw_features corpus = .ok (vecs, ckeys (totalCounter corpus)) ∧
      featureSetInit logFn corpus ⟨none, none, none, none, "norm" :: []⟩ = .ok vecs ∧
      featureSetInit logFn corpus ⟨none, none, none, none, []⟩ = .ok vecs) := by
  have hgen : ∀ kwargs, featureSetInit logFn corpus kwargs =
      match raw_features corpus with
      | .ok r => deleteFeaturesFS r.1 kwargs
      | .error e => .error e := by
    intro kwargs
    rw [featureSetInit]
    rcases h : raw_features corpus with e | r
    · rfl
    · exact processFS_none logFn r.1 kwargs
  refine ⟨hgen, ?_⟩
  obtain ⟨vecs, hraw, hlen, _⟩ := raw_features_full_spec corpus hnd hpos
  have hvne : vecs ≠ [] := by
    intro h0
    rw [h0] at hlen
    rcases corpus with _ | ⟨s, ss⟩
    · exact hne rfl
    · simp at hlen
  refine ⟨vecs, hraw, ?_, ?_⟩
  · rw [hgen _, hraw]
    exact deleteFeaturesFS_no_thresholds vecs hvne _
  · rw [hgen _, hraw]
    exact deleteFeaturesFS_no_thresholds vecs hvne _

/-- Witness for C10 on the two-stream corpus `{a:1, b:1}`, `{a:1, c:1}`
with a dummy `logFn`. -/
theorem c10_featureSetInit_never_normalizes_witness :
    (exampleStreams ≠ [] ∧ (∀ s ∈ exampleStreams, keysNodup s) ∧
      (∀ s ∈ exampleStreams, posCounts s)) ∧
    ((∀ kwargs, featureSetInit (fun _ => 0) exampleStreams kwargs =
      match raw_features exampleStreams with
      | .ok r => deleteFeaturesFS r.1 kwargs
      | .error e => .error e) ∧
    (∃ vecs, raw_features exampleStreams = .ok (vecs, ckeys (totalCounter exampleStreams)) ∧
      featureSetInit (fun _ => 0) exampleStreams ⟨none, none, none, none, "norm" :: []⟩ =
        .ok vecs ∧
      featureSetInit (fun _ => 0) exampleStreams ⟨none, none, none, none, []⟩ = .ok vecs)) :=
  ⟨⟨by decide, by decide, by decide⟩,
    c10_featureSetInit_never_normalizes (fun _ => 0) exampleStreams
      (by decide) (by decide) (by decide)⟩

end Philoyore
